import Mathlib

/-!
Verification of the `safepath` package (file `safepath.go`).

Segments and paths are modelled as lists of byte values (`List Nat`, each
element intended `< 256`), mirroring Go strings, which are byte sequences.
Rule sets (`Rules`, a `uint8` bitset in Go) are modelled as `Nat` with the
bitwise operations `&&&`, `|||`, `andNot` standing for Go's `&`, `|`, `&^`.
Every function mirrors the corresponding Go function of the package.
-/

namespace Safepath

/-- `ASCIIOnly Rules = 1 << iota` with `iota = 0`. -/
def ASCIIOnly : Nat := 1

/-- `ValidUTF8`: second flag bit. -/
def ValidUTF8 : Nat := 2

/-- `URLUnescaped`: third flag bit. -/
def URLUnescaped : Nat := 4

/-- `ShellSafe`: fourth flag bit. -/
def ShellSafe : Nat := 8

/-- `ArgumentSafe`: fifth flag bit. -/
def ArgumentSafe : Nat := 16

/-- `WindowsSafe`: sixth flag bit. -/
def WindowsSafe : Nat := 32

/-- `NotHidden`: seventh flag bit. -/
def NotHidden : Nat := 64

/-- `always`: rules that always apply (internal bit). -/
def always : Nat := 128

/-- `Any Rules = 0`: the empty rule set. -/
def Any : Nat := 0

/-- `Strict = ASCIIOnly | ValidUTF8 | URLUnescaped | ShellSafe | ArgumentSafe | WindowsSafe | NotHidden`. -/
def Strict : Nat :=
  ASCIIOnly ||| ValidUTF8 ||| URLUnescaped ||| ShellSafe ||| ArgumentSafe ||| WindowsSafe ||| NotHidden

/-- Byte values of the Go string `" \"#%/:<>?[\\]^`{|}"`: characters whose
`URLUnescaped` flag is removed in `init` (RFC 3986 section 3.3). -/
def urlNeedsEscape : List Nat := [32, 34, 35, 37, 47, 58, 60, 62, 63, 91, 92, 93, 94, 96, 123, 124, 125]

/-- Byte values of the Go string `" |&;<>()$`\\\"'"`: characters whose
`ShellSafe` flag is removed in `init` (POSIX shell metacharacters and space). -/
def shellNeedsQuote : List Nat := [32, 124, 38, 59, 60, 62, 40, 41, 36, 96, 92, 34, 39]

/-- Byte values of the Go string `"<>:\"/\\|?*"`: characters whose
`WindowsSafe` flag is removed in `init` (Windows reserved path characters). -/
def windowsNeedsQuote : List Nat := [60, 62, 58, 34, 47, 92, 124, 63, 42]

/-- Go's `a &^ b` (AND NOT) on `uint8` values: on naturals below 256 this is
exactly `a &&& (b ^^^ 0xFF)`. -/
def andNot (a b : Nat) : Nat := a &&& (b ^^^ 0xFF)

/-- The `flags` array after the first three layers of `init`:
control characters (1–31, 127) get `always | ASCIIOnly | ValidUTF8`;
printable ASCII 32–126 gets `Strict | always`, with `flags['/']` then zeroed;
high bytes 128–255 get `(Strict | always) &^ ASCIIOnly`.  `flags[0]` is never
assigned and stays zero (Go array zero value); inputs `≥ 256` cannot occur
for a Go byte and are mapped to 0. -/
def flagsBase (c : Nat) : Nat :=
  if 1 ≤ c ∧ c < 32 then always ||| ASCIIOnly ||| ValidUTF8
  else if c = 127 then always ||| ASCIIOnly ||| ValidUTF8
  else if c = 47 then 0
  else if 32 ≤ c ∧ c ≤ 126 then Strict ||| always
  else if 128 ≤ c ∧ c < 256 then andNot (Strict ||| always) ASCIIOnly
  else 0

/-- The final `flags` array: `flagsBase` with the three blacklist layers of
`init` applied (`flags[c] &^= URLUnescaped` / `ShellSafe` / `WindowsSafe`). -/
def flags (c : Nat) : Nat :=
  let f0 := flagsBase c
  let f1 := if c ∈ urlNeedsEscape then andNot f0 URLUnescaped else f0
  let f2 := if c ∈ shellNeedsQuote then andNot f1 ShellSafe else f1
  if c ∈ windowsNeedsQuote then andNot f2 WindowsSafe else f2

/-- The `windowsReserved` map built in `init`: `con`, `prn`, `aux`, `nul`,
`com1`..`com9`, `lpt1`..`lpt9`, as byte lists (all ASCII lowercase). -/
def windowsReserved : List (List Nat) :=
  [[99, 111, 110], [112, 114, 110], [97, 117, 120], [110, 117, 108]] ++
  ((List.range 9).map fun i => [99, 111, 109, 49 + i]) ++
  ((List.range 9).map fun i => [108, 112, 116, 49 + i])

/-- Error codes, in declaration order of the Go `const` block. -/
def errBad : Nat := 0

/-- `errFirst`: segment starts with a disallowed character. -/
def errFirst : Nat := 1

/-- `errLast`: segment ends with a disallowed character. -/
def errLast : Nat := 2

/-- `errAny`: segment contains a disallowed byte or character. -/
def errAny : Nat := 3

/-- `errInvalidUTF8`: segment is not valid UTF-8 text. -/
def errInvalidUTF8 : Nat := 4

/-- `errNonASCII`: segment contains a non-ASCII byte or character. -/
def errNonASCII : Nat := 5

/-- `errWReserved`: segment uses a reserved Windows filename. -/
def errWReserved : Nat := 6

/-- `errEmpty`: path is empty. -/
def errEmpty : Nat := 7

/-- `errAbsolute`: path is absolute. -/
def errAbsolute : Nat := 8

/-- `errTrailingSlash`: path has a trailing slash. -/
def errTrailingSlash : Nat := 9

/-- `errDoubleSlash`: path has a double slash. -/
def errDoubleSlash : Nat := 10

/-- The Go `Error` struct (structured validation failure).  The `char` field
holds a rune as its Unicode code point. -/
structure ErrData where
  isPath : Bool := false
  path : List Nat := []
  name : List Nat := []
  err : Nat
  byte : Nat := 0
  char : Nat := 0
  base : List Nat := []
  deriving Repr, DecidableEq

/-- `utf8.RuneError` (U+FFFD). -/
def runeError : Nat := 0xFFFD

/-- Model of Go's `utf8.DecodeRuneInString`, returning (rune, size).
Mirrors the first-byte classification (`first` table) and the `acceptRanges`
of the `unicode/utf8` package: invalid starters 0x80–0xC1 and 0xF5–0xFF,
short input, and out-of-range continuation bytes all yield `(RuneError, 1)`;
the empty string yields `(RuneError, 0)`. -/
def utf8DecodeRune : List Nat → Nat × Nat
  | [] => (runeError, 0)
  | s0 :: rest =>
    if s0 < 0x80 then (s0, 1)
    else if s0 < 0xC2 ∨ 0xF4 < s0 then (runeError, 1)
    else if s0 ≤ 0xDF then
      match rest with
      | s1 :: _ =>
        if s1 < 0x80 ∨ 0xBF < s1 then (runeError, 1)
        else ((s0 % 0x20) * 0x40 + s1 % 0x40, 2)
      | [] => (runeError, 1)
    else if s0 ≤ 0xEF then
      match rest with
      | s1 :: s2 :: _ =>
        if s1 < (if s0 = 0xE0 then 0xA0 else 0x80) ∨ (if s0 = 0xED then 0x9F else 0xBF) < s1 then
          (runeError, 1)
        else if s2 < 0x80 ∨ 0xBF < s2 then (runeError, 1)
        else ((s0 % 0x10) * 0x1000 + (s1 % 0x40) * 0x40 + s2 % 0x40, 3)
      | _ => (runeError, 1)
    else
      match rest with
      | s1 :: s2 :: s3 :: _ =>
        if s1 < (if s0 = 0xF0 then 0x90 else 0x80) ∨ (if s0 = 0xF4 then 0x8F else 0xBF) < s1 then
          (runeError, 1)
        else if s2 < 0x80 ∨ 0xBF < s2 then (runeError, 1)
        else if s3 < 0x80 ∨ 0xBF < s3 then (runeError, 1)
        else ((s0 % 0x8) * 0x40000 + (s1 % 0x40) * 0x1000 + (s2 % 0x40) * 0x40 + s3 % 0x40, 4)
      | _ => (runeError, 1)

/-- `utf8.RuneStart`: `b & 0xC0 != 0x80`. -/
def runeStart (b : Nat) : Bool := b &&& 0xC0 != 0x80

/-- Model of Go's `utf8.DecodeLastRuneInString`: scan back at most `UTFMax = 4`
bytes for a rune start, decode from there, and fail unless the decode consumes
exactly to the end of the string. -/
def utf8DecodeLastRune (s : List Nat) : Nat × Nat :=
  match s with
  | [] => (runeError, 0)
  | _ :: _ =>
    let n := s.length
    let last := s.getD (n - 1) 0
    if last < 0x80 then (last, 1)
    else
      let lim : Nat := n - 4
      let start : Nat :=
        if 2 ≤ n ∧ runeStart (s.getD (n - 2) 0) then n - 2
        else if 3 ≤ n ∧ runeStart (s.getD (n - 3) 0) then n - 3
        else if 4 ≤ n ∧ runeStart (s.getD (n - 4) 0) then n - 4
        else if lim = 0 then 0 else lim - 1
      let p := utf8DecodeRune (s.drop start)
      if start + p.2 ≠ n then (runeError, 1) else p

/-- Size of a successful-or-failed decode of a nonempty input is at least 1. -/
theorem utf8DecodeRune_pos (s : List Nat) (h : s ≠ []) : 1 ≤ (utf8DecodeRune s).2 := by
  match s with
  | [] => exact absurd rfl h
  | s0 :: rest =>
    rcases rest with _ | ⟨s1, _ | ⟨s2, _ | ⟨s3, t⟩⟩⟩ <;>
      simp only [utf8DecodeRune] <;> split_ifs <;> simp

/-- The UTF-8 validity loop of `CheckPathSegment` (run when
`r&(ASCIIOnly|ValidUTF8) == ValidUTF8`): decode rune by rune, failing with
`errInvalidUTF8` on the first `(RuneError, 1)` result.  The loop consumes at
least one byte per step, so running it with `rest.length` as fuel (see
`utf8ScanLoop`) never reaches the fuel-exhausted arm. -/
def utf8ScanGo (name : List Nat) : Nat → List Nat → Option ErrData
  | _, [] => none
  | fuel + 1, s0 :: rest =>
    let p := utf8DecodeRune (s0 :: rest)
    if p.1 = runeError ∧ p.2 = 1 then some { name := name, err := errInvalidUTF8 }
    else utf8ScanGo name fuel ((s0 :: rest).drop p.2)
  | 0, _ :: _ => none

/-- Entry point of the UTF-8 validity loop. -/
def utf8ScanLoop (name : List Nat) (rest : List Nat) : Option ErrData :=
  utf8ScanGo name rest.length rest

/-- The byte-containment scan of `CheckPathSegment`
(`for i, c := range []byte(name)`), with `todo` the remaining bytes and `i`
the current index (`todo = name.drop i` at every call).  The guard for
`errNonASCII` is the source's own `r&ASCIIOnly != 0 && r&ASCIIOnly == 0`. -/
def byteScanAux (r : Nat) (name : List Nat) : List Nat → Nat → Option ErrData
  | [], _ => none
  | c :: todo, i =>
    let f := flags c
    if f &&& r ≠ r then
      let ecode := if r &&& ASCIIOnly ≠ 0 ∧ r &&& ASCIIOnly = 0 then errNonASCII else errAny
      let p := utf8DecodeRune (name.drop i)
      if p.1 = runeError ∧ p.2 = 1 then some { name := name, err := ecode, byte := c }
      else some { name := name, err := ecode, char := p.1 }
    else byteScanAux r name todo (i + 1)

/-- The byte-containment scan over the whole segment. -/
def byteScan (r : Nat) (name : List Nat) : Option ErrData :=
  byteScanAux r name name 0

/-- Model of `strings.IndexByte` (`none` for Go's `-1`). -/
def indexByte (l : List Nat) (b : Nat) : Option Nat :=
  match l with
  | [] => none
  | c :: t => if c = b then some 0 else (indexByte t b).map (· + 1)

/-- ASCII lowercasing of one byte.

Models `strings.ToLower` for the reserved-name membership test.  Go's
`strings.ToLower` is Unicode-aware, but for the verdict of
`windowsReserved[base]` the two agree: every key of `windowsReserved` is a
pure lowercase-ASCII string over the letters c,o,n,p,r,a,u,x,l,t,m and digits,
and the only Unicode code points whose simple lowercase mapping is an ASCII
character are U+0130 (→ i) and U+212A (→ k), neither of which can produce a
letter of any key; invalid bytes are likewise never folded into ASCII. -/
def toLowerByte (c : Nat) : Nat := if 65 ≤ c ∧ c ≤ 90 then c + 32 else c

/-- `strings.ToLower` on a byte string (see `toLowerByte`). -/
def toLower (s : List Nat) : List Nat := s.map toLowerByte

/-- The base-name computation of the Windows reserved-name check:
`some base` when the check applies (at most one `.` in the segment), where
`base` is the part before the first `.` (or the whole segment); `none` when
the segment has two or more dots and the check is skipped. -/
def windowsBase (name : List Nat) : Option (List Nat) :=
  match indexByte name 46 with
  | none => some name
  | some i => if indexByte (name.drop (i + 1)) 46 = none then some (name.take i) else none

/-- The body of the `r&WindowsSafe != 0` block of `CheckPathSegment`:
trailing `.`/space check, then the reserved-name check. -/
def windowsCheck (name : List Nat) (last : Nat) : Option ErrData :=
  if last = 46 ∨ last = 32 then some { name := name, err := errLast, char := last }
  else
    match windowsBase name with
    | none => none
    | some base0 =>
      if base0.length = 3 ∨ base0.length = 4 then
        let base := toLower base0
        if base ∈ windowsReserved then some { name := name, err := errWReserved, base := base }
        else none
      else none

/-- First rune of a segment (`utf8.DecodeRuneInString(name)`). -/
def firstRune (name : List Nat) : Nat := (utf8DecodeRune name).1

/-- Last rune of a segment (`utf8.DecodeLastRuneInString(name)`). -/
def lastRune (name : List Nat) : Nat := (utf8DecodeLastRune name).1

/-- The positional checks at the end of `CheckPathSegment`: leading `~`
(ShellSafe), leading `-` (ArgumentSafe), the Windows block, leading `.`
(NotHidden), in source order. -/
def posChecks (r : Nat) (name : List Nat) : Option ErrData :=
  let first := firstRune name
  let last := lastRune name
  if r &&& ShellSafe ≠ 0 ∧ first = 126 then some { name := name, err := errFirst, char := first }
  else if r &&& ArgumentSafe ≠ 0 ∧ first = 45 then some { name := name, err := errFirst, char := first }
  else
    match (if r &&& WindowsSafe ≠ 0 then windowsCheck name last else none) with
    | some e => some e
    | none =>
      if r &&& NotHidden ≠ 0 ∧ first = 46 then some { name := name, err := errFirst, char := first }
      else none

/-- The conditional UTF-8 validity stage of `CheckPathSegment`. -/
def utf8Stage (r : Nat) (name : List Nat) : Option ErrData :=
  if r &&& (ASCIIOnly ||| ValidUTF8) = ValidUTF8 then utf8ScanLoop name name else none

/-- The source's own masking at the top of `CheckPathSegment`:
`r = (r & Strict) | always`. -/
def eff (r0 : Nat) : Nat := (r0 &&& Strict) ||| always

/-- `Rules.CheckPathSegment`.  `none` means the segment is accepted; `some e`
is the returned `*Error`.  First the masking `r = (r & Strict) | always`
(see `eff`); then: reserved segment names, UTF-8 validity, byte containment,
positional checks, in source order. -/
def CheckPathSegment (r0 : Nat) (name : List Nat) : Option ErrData :=
  let r := eff r0
  if name = [] ∨ name = [46] ∨ name = [46, 46] then some { name := name, err := errBad }
  else
    match utf8Stage r name with
    | some e => some e
    | none =>
      match byteScan r name with
      | some e => some e
      | none => posChecks r name

/-- The segment-splitting loop of `Rules.CheckPath`: find the next `/`;
at position 0 report a double slash; with none left the remainder is the last
segment; otherwise split, rejecting a trailing slash when nothing follows,
and validate the segment, re-tagging its error as path-scoped. -/
def checkPathGo (r : Nat) (pname : List Nat) : Nat → List Nat → Option ErrData
  | _, [] => none
  | fuel + 1, b :: rest0 =>
    let rest := b :: rest0
    match indexByte rest 47 with
    | some 0 => some { isPath := true, path := pname, err := errDoubleSlash }
    | none =>
      match CheckPathSegment r rest with
      | some e => some { e with isPath := true, path := pname }
      | none => none
    | some (i + 1) =>
      let part := rest.take (i + 1)
      let rest1 := rest.drop (i + 2)
      if rest1 = [] then some { isPath := true, path := pname, err := errTrailingSlash }
      else
        match CheckPathSegment r part with
        | some e => some { e with isPath := true, path := pname }
        | none => checkPathGo r pname fuel rest1
  | 0, _ :: _ => none

/-- Entry point of the path-splitting loop.  Each iteration consumes at least
two bytes, so `rest.length` as fuel never reaches the fuel-exhausted arm. -/
def checkPathLoop (r : Nat) (pname : List Nat) (rest : List Nat) : Option ErrData :=
  checkPathGo r pname rest.length rest

/-- `Rules.CheckPath`: empty and absolute paths rejected up front, then the
splitting loop. -/
def CheckPath (r : Nat) (name : List Nat) : Option ErrData :=
  if name.length = 0 then some { isPath := true, path := name, err := errEmpty }
  else if name.getD 0 0 = 47 then some { isPath := true, path := name, err := errAbsolute }
  else checkPathLoop r name name

/-- Lowercase hex digit. -/
def hexDigitChar (n : Nat) : Char := if n < 10 then Char.ofNat (48 + n) else Char.ofNat (87 + n)

/-- `fmt.Sprintf("0x%02x", rem)` for a `uint8` value (`rem < 256`). -/
def hexByte (n : Nat) : String :=
  String.mk [Char.ofNat 48, Char.ofNat 120, hexDigitChar (n / 16 % 16), hexDigitChar (n % 16)]

/-- `Rules.GoString`: list the names of the flags present, in declaration
order; note the source's `ArgumentSafe` branch appends the string
`"ShellSafe"`.  Unknown remaining bits are appended in hex; the empty rule
set renders as `"Any"`. -/
def GoString (r : Nat) : String :=
  let s : List String :=
    (if r &&& ASCIIOnly ≠ 0 then ["ASCIIOnly"] else []) ++
    (if r &&& ValidUTF8 ≠ 0 then ["ValidUTF8"] else []) ++
    (if r &&& URLUnescaped ≠ 0 then ["URLUnescaped"] else []) ++
    (if r &&& ShellSafe ≠ 0 then ["ShellSafe"] else []) ++
    (if r &&& ArgumentSafe ≠ 0 then ["ShellSafe"] else []) ++
    (if r &&& WindowsSafe ≠ 0 then ["WindowsSafe"] else []) ++
    (if r &&& NotHidden ≠ 0 then ["NotHidden"] else [])
  let rem := andNot r (ASCIIOnly ||| ValidUTF8 ||| URLUnescaped ||| ShellSafe ||| ArgumentSafe ||| WindowsSafe ||| NotHidden)
  if rem = 0 then
    if s = [] then "Any" else String.intercalate "|" s
  else String.intercalate "|" (s ++ [hexByte rem])

/-! ## Specification-side UTF-8 well-formedness

Independent of the decoder above: a byte list is well-formed UTF-8 when it is
the concatenation of the standard encodings of a list of Unicode scalar
values. -/

/-- A Unicode scalar value: a code point below `0x110000` that is not a
surrogate. -/
def UnicodeScalar (c : Nat) : Prop := c < 0x110000 ∧ ¬(0xD800 ≤ c ∧ c ≤ 0xDFFF)

instance (c : Nat) : Decidable (UnicodeScalar c) := by unfold UnicodeScalar; infer_instance

/-- The standard UTF-8 encoding of a scalar value. -/
def utf8EncodeChar (c : Nat) : List Nat :=
  if c < 0x80 then [c]
  else if c < 0x800 then [0xC0 + c / 0x40, 0x80 + c % 0x40]
  else if c < 0x10000 then [0xE0 + c / 0x1000, 0x80 + c / 0x40 % 0x40, 0x80 + c % 0x40]
  else [0xF0 + c / 0x40000, 0x80 + c / 0x1000 % 0x40, 0x80 + c / 0x40 % 0x40, 0x80 + c % 0x40]

/-- Well-formed UTF-8: a concatenation of encodings of scalar values. -/
def Utf8WellFormed (s : List Nat) : Prop :=
  ∃ cs : List Nat, (∀ c ∈ cs, UnicodeScalar c) ∧ s = (cs.map utf8EncodeChar).flatten

/-! ## Bitset toolkit -/

/-- Bitwise-subset is transitive through a containment test:
if `a`'s bits lie in `b` and `f` contains all of `b`, then `f` contains
all of `a`. -/
theorem land_subset_trans {a b f : Nat} (h1 : a &&& b = a) (h2 : f &&& b = b) :
    f &&& a = a := by
  calc f &&& a = f &&& (a &&& b) := by rw [h1]
    _ = f &&& (b &&& a) := by rw [Nat.land_comm a b]
    _ = (f &&& b) &&& a := by rw [Nat.land_assoc]
    _ = b &&& a := by rw [h2]
    _ = a &&& b := Nat.land_comm b a
    _ = a := h1

/-- A bit set in the smaller of two nested bitsets is set in the larger. -/
theorem subset_land_ne {a b x : Nat} (h : a &&& b = a) (hx : a &&& x ≠ 0) :
    b &&& x ≠ 0 := by
  intro hb
  apply hx
  calc a &&& x = (a &&& b) &&& x := by rw [h]
    _ = a &&& (b &&& x) := Nat.land_assoc a b x
    _ = a &&& 0 := by rw [hb]
    _ = 0 := by simp

/-- Masking to the effective rule set preserves bitwise inclusion. -/
theorem eff_subset {r1 r2 : Nat} (h : r1 &&& r2 = r1) : eff r1 &&& eff r2 = eff r1 := by
  apply Nat.eq_of_testBit_eq
  intro i
  have hbit : (r1.testBit i && r2.testBit i) = r1.testBit i := by
    rw [← Nat.testBit_land, h]
  simp only [eff, Nat.testBit_land, Nat.testBit_lor]
  cases h1 : r1.testBit i <;> cases h2 : r2.testBit i <;>
    cases hs : Strict.testBit i <;> cases ha : always.testBit i <;> simp_all

/-- If a rule set requests `ValidUTF8` without `ASCIIOnly`, any larger rule
set either does the same or requests `ASCIIOnly`. -/
theorem utf8cond_cases {r1 r2 : Nat} (hsub : r1 &&& r2 = r1)
    (h1 : r1 &&& (ASCIIOnly ||| ValidUTF8) = ValidUTF8) :
    r2 &&& (ASCIIOnly ||| ValidUTF8) = ValidUTF8 ∨ r2 &&& ASCIIOnly ≠ 0 := by
  have e3 : ∀ n : Nat, n &&& 3 = n % 4 := fun n => by
    have h := Nat.and_pow_two_sub_one_eq_mod n 2
    norm_num at h
    exact h
  have e1 : ∀ n : Nat, n &&& 1 = n % 2 := Nat.and_one_is_mod
  have hAV : (ASCIIOnly ||| ValidUTF8 : Nat) = 3 := by decide
  have hA : ASCIIOnly = 1 := rfl
  have hV : ValidUTF8 = 2 := rfl
  rw [hAV, hV] at h1
  rw [hAV, hV, hA, e3 r2, e1 r2]
  have key : r1 &&& (r2 &&& 3) = 2 := by
    calc r1 &&& (r2 &&& 3) = (r1 &&& r2) &&& 3 := (Nat.land_assoc r1 r2 3).symm
      _ = r1 &&& 3 := by rw [hsub]
      _ = 2 := h1
  rw [e3 r2] at key
  have hmm : r2 % 4 % 2 = r2 % 2 := Nat.mod_mod_of_dvd r2 (by norm_num)
  have hlt : r2 % 4 < 4 := Nat.mod_lt _ (by norm_num)
  set m := r2 % 4 with hm
  interval_cases m
  · simp at key
  · rw [e1 r1] at key
    omega
  · left; rfl
  · right; omega

/-! ## Facts about the classification table -/

/-- Bytes outside the Go byte range are not classified. -/
theorem flags_ge256 (b : Nat) (h : 256 ≤ b) : flags b = 0 := by
  have hbase : flagsBase b = 0 := by
    unfold flagsBase
    split_ifs with h1 h2 h3 h4 h5 <;> omega
  have h1 : b ∉ urlNeedsEscape := by intro hm; simp [urlNeedsEscape] at hm; omega
  have h2 : b ∉ shellNeedsQuote := by intro hm; simp [shellNeedsQuote] at hm; omega
  have h3 : b ∉ windowsNeedsQuote := by intro hm; simp [windowsNeedsQuote] at hm; omega
  simp [flags, h1, h2, h3, hbase]

set_option maxRecDepth 10000 in
/-- Only ASCII bytes carry the `ASCIIOnly` flag. -/
theorem flags_asciionly_lt128 : ∀ b : Nat, b < 256 → (flags b &&& ASCIIOnly ≠ 0 → b < 128) := by
  decide

set_option maxRecDepth 10000 in
/-- A byte carries the `always` flag exactly when it is neither the null byte
nor the separator. -/
theorem flags_always_iff : ∀ b : Nat, b < 256 → (flags b &&& always = always ↔ b ≠ 0 ∧ b ≠ 47) := by
  decide

set_option maxRecDepth 10000 in
/-- Every non-ASCII byte is classified as `(Strict | always) &^ ASCIIOnly`:
all constraints except `ASCIIOnly`. -/
theorem flags_high : ∀ b : Nat, b < 256 → (128 ≤ b → flags b = andNot (Strict ||| always) ASCIIOnly) := by
  decide

/-! ## Byte-scan lemmas -/

/-- The dead `errNonASCII` guard: `r&ASCIIOnly != 0 && r&ASCIIOnly == 0`
never holds, so the scan's error code is always `errAny`. -/
theorem ecode_eq_errAny (r : Nat) :
    (if r &&& ASCIIOnly ≠ 0 ∧ r &&& ASCIIOnly = 0 then errNonASCII else errAny) = errAny := by
  rw [if_neg]
  rintro ⟨h1, h2⟩
  exact h1 h2

/-- The byte scan accepts exactly when every remaining byte's classification
contains the effective rule set. -/
theorem byteScanAux_none_iff (r : Nat) (name todo : List Nat) (i : Nat) :
    byteScanAux r name todo i = none ↔ ∀ c ∈ todo, flags c &&& r = r := by
  induction todo generalizing i with
  | nil => simp [byteScanAux]
  | cons c t ih =>
    by_cases hf : flags c &&& r = r
    · have hstep : byteScanAux r name (c :: t) i = byteScanAux r name t (i + 1) := by
        simp [byteScanAux, hf]
      rw [hstep, ih (i + 1)]
      constructor
      · intro h x hx
        rcases List.mem_cons.mp hx with hx | hx
        · rw [hx]; exact hf
        · exact h x hx
      · intro h x hx
        exact h x (List.mem_cons_of_mem c hx)
    · have hne : byteScanAux r name (c :: t) i ≠ none := by
        simp only [byteScanAux, if_pos hf]
        split_ifs <;> simp
      constructor
      · intro h
        exact absurd h hne
      · intro h
        exact absurd (h c (by simp)) hf

/-- A byte-scan failure always carries kind `errAny` and the segment. -/
theorem byteScanAux_some (r : Nat) (name todo : List Nat) (i : Nat) (e : ErrData)
    (h : byteScanAux r name todo i = some e) :
    e.err = errAny ∧ e.name = name ∧ e.isPath = false := by
  induction todo generalizing i with
  | nil => simp [byteScanAux] at h
  | cons c t ih =>
    by_cases hf : flags c &&& r = r
    · have hstep : byteScanAux r name (c :: t) i = byteScanAux r name t (i + 1) := by
        simp [byteScanAux, hf]
      rw [hstep] at h
      exact ih (i + 1) h
    · simp only [byteScanAux, if_pos hf, ecode_eq_errAny] at h
      split_ifs at h <;> (cases h; exact ⟨rfl, rfl, rfl⟩)

/-- The full-segment byte scan: acceptance characterization. -/
theorem byteScan_none_iff (r : Nat) (name : List Nat) :
    byteScan r name = none ↔ ∀ c ∈ name, flags c &&& r = r :=
  byteScanAux_none_iff r name name 0

/-! ## UTF-8 scan lemmas -/

/-- An all-ASCII byte list passes the UTF-8 validity loop. -/
theorem utf8ScanGo_ascii (name : List Nat) (fuel : Nat) (rest : List Nat)
    (h : ∀ b ∈ rest, b < 128) : utf8ScanGo name fuel rest = none := by
  induction fuel generalizing rest with
  | zero => cases rest <;> simp [utf8ScanGo]
  | succ fuel ih =>
    cases rest with
    | nil => simp [utf8ScanGo]
    | cons s0 t =>
      have h0 : s0 < 128 := h s0 (by simp)
      simp only [utf8ScanGo]
      have hd : utf8DecodeRune (s0 :: t) = (s0, 1) := by
        simp [utf8DecodeRune, h0]
      rw [hd]
      have hne : ¬(s0 = runeError ∧ (1 : Nat) = 1) := by
        rintro ⟨hr, -⟩
        rw [runeError] at hr
        omega
      rw [if_neg hne]
      exact ih (List.drop 1 (s0 :: t)) (by simpa using fun b hb => h b (List.mem_cons_of_mem s0 hb))

/-- A UTF-8 scan failure is the `errInvalidUTF8` error for the segment. -/
theorem utf8ScanGo_some (name : List Nat) (fuel : Nat) (rest : List Nat) (e : ErrData)
    (h : utf8ScanGo name fuel rest = some e) : e = { name := name, err := errInvalidUTF8 } := by
  induction fuel generalizing rest with
  | zero => cases rest <;> simp [utf8ScanGo] at h
  | succ fuel ih =>
    cases rest with
    | nil => simp [utf8ScanGo] at h
    | cons s0 t =>
      simp only [utf8ScanGo] at h
      split_ifs at h with hc
      · cases h; rfl
      · exact ih _ h

/-! ## Characterization of the segment validator -/

/-- Acceptance characterization of the positional checks. -/
theorem posChecks_none_iff (r : Nat) (name : List Nat) :
    posChecks r name = none ↔
      ¬(r &&& ShellSafe ≠ 0 ∧ firstRune name = 126) ∧
      ¬(r &&& ArgumentSafe ≠ 0 ∧ firstRune name = 45) ∧
      (r &&& WindowsSafe ≠ 0 → windowsCheck name (lastRune name) = none) ∧
      ¬(r &&& NotHidden ≠ 0 ∧ firstRune name = 46) := by
  simp only [posChecks]
  by_cases hW : r &&& WindowsSafe ≠ 0
  · rw [if_pos hW]
    rcases hwc : windowsCheck name (lastRune name) with - | e <;> dsimp only <;>
      split_ifs <;> simp_all
  · rw [if_neg hW]
    split_ifs <;> simp_all

/-- A positional-check failure is a leading-character error or comes from the
Windows block. -/
theorem posChecks_some (r : Nat) (name : List Nat) (e : ErrData)
    (h : posChecks r name = some e) :
    (e.err = errFirst ∧ e.name = name) ∨
      (r &&& WindowsSafe ≠ 0 ∧ windowsCheck name (lastRune name) = some e) := by
  simp only [posChecks] at h
  by_cases hW : r &&& WindowsSafe ≠ 0
  · rw [if_pos hW] at h
    rcases hwc : windowsCheck name (lastRune name) with - | e1 <;> rw [hwc] at h <;>
      dsimp only at h <;> split_ifs at h <;> first
      | (cases h; exact Or.inl ⟨rfl, rfl⟩)
      | (cases h; exact Or.inr ⟨hW, rfl⟩)
      | cases h
  · rw [if_neg hW] at h
    dsimp only at h
    split_ifs at h <;> first
      | (cases h; exact Or.inl ⟨rfl, rfl⟩)
      | cases h

/-- A Windows-block failure is a trailing-character error or names a reserved
base name of length 3 or 4 under a single-dot segment. -/
theorem windowsCheck_some (name : List Nat) (last : Nat) (e : ErrData)
    (h : windowsCheck name last = some e) :
    (e.err = errLast ∧ e.name = name) ∨
      (e.err = errWReserved ∧ e.name = name ∧
        ∃ b0, windowsBase name = some b0 ∧ (b0.length = 3 ∨ b0.length = 4) ∧
          toLower b0 ∈ windowsReserved ∧ e.base = toLower b0) := by
  simp only [windowsCheck] at h
  split_ifs at h with h1
  · cases h
    exact Or.inl ⟨rfl, rfl⟩
  · rcases hb : windowsBase name with - | b0 <;> rw [hb] at h <;> dsimp only at h
    · cases h
    · split_ifs at h with h2 h3
      · cases h
        exact Or.inr ⟨rfl, rfl, b0, rfl, h2, h3, rfl⟩
      all_goals cases h

/-- Acceptance characterization of `CheckPathSegment`: not a reserved segment
name, and all three stages accept. -/
theorem cps_none_iff (r0 : Nat) (name : List Nat) :
    CheckPathSegment r0 name = none ↔
      ¬(name = [] ∨ name = [46] ∨ name = [46, 46]) ∧
      utf8Stage (eff r0) name = none ∧
      byteScan (eff r0) name = none ∧
      posChecks (eff r0) name = none := by
  simp only [CheckPathSegment]
  split_ifs with hb
  · simp [hb]
  · rcases h1 : utf8Stage (eff r0) name with - | e1 <;> dsimp only
    · rcases h2 : byteScan (eff r0) name with - | e2 <;> dsimp only
      · simp [hb]
      · simp [hb]
    · simp [hb]

/-- Failure decomposition of `CheckPathSegment`: a reserved segment name, or
the first failing stage. -/
theorem cps_some_cases (r0 : Nat) (name : List Nat) (e : ErrData)
    (h : CheckPathSegment r0 name = some e) :
    ((name = [] ∨ name = [46] ∨ name = [46, 46]) ∧ e = { name := name, err := errBad }) ∨
      utf8Stage (eff r0) name = some e ∨
      (utf8Stage (eff r0) name = none ∧ byteScan (eff r0) name = some e) ∨
      (utf8Stage (eff r0) name = none ∧ byteScan (eff r0) name = none ∧
        posChecks (eff r0) name = some e) := by
  simp only [CheckPathSegment] at h
  split_ifs at h with hb
  · cases h
    exact Or.inl ⟨hb, rfl⟩
  · rcases h1 : utf8Stage (eff r0) name with - | e1 <;> rw [h1] at h <;> dsimp only at h
    · rcases h2 : byteScan (eff r0) name with - | e2 <;> rw [h2] at h <;> dsimp only at h
      · exact Or.inr (Or.inr (Or.inr ⟨rfl, rfl, h⟩))
      · cases h
        exact Or.inr (Or.inr (Or.inl ⟨rfl, rfl⟩))
    · cases h
      exact Or.inr (Or.inl rfl)

/-- The effective rule set always contains the `always` bit, hence is
nonzero. -/
theorem eff_ne_zero (r : Nat) : eff r ≠ 0 := by
  intro h
  have h7 : (eff r).testBit 7 = true := by
    have := Nat.testBit_lor (r &&& Strict) always 7
    rw [eff, this, (by decide : always.testBit 7 = true)]
    simp
  rw [h] at h7
  simp [Nat.zero_testBit] at h7

/-- Masking to the effective rule set preserves each selectable bit. -/
theorem eff_land_bit (r k : Nat) (hk : k < 7) : eff r &&& 2 ^ k = r &&& 2 ^ k := by
  apply Nat.eq_of_testBit_eq
  intro i
  simp only [eff, Nat.testBit_land, Nat.testBit_lor]
  rcases eq_or_ne i k with rfl | hi
  · have hs : Strict.testBit i = true := by interval_cases i <;> decide
    have ha : always.testBit i = false := by interval_cases i <;> decide
    rw [hs, ha]
    cases r.testBit i <;> simp
  · have hp : (2 ^ k : Nat).testBit i = false := Nat.testBit_two_pow_of_ne (Ne.symm hi)
    rw [hp]
    simp

/-- `eff` preserves the `ASCIIOnly` bit. -/
theorem eff_land_ASCIIOnly (r : Nat) : eff r &&& ASCIIOnly = r &&& ASCIIOnly := by
  have h := eff_land_bit r 0 (by norm_num)
  rw [(by norm_num : (2 : Nat) ^ 0 = 1)] at h
  show eff r &&& 1 = r &&& 1
  exact h

/-! ## Claim theorems -/

/-- C1: monotonicity of segment validation.  For rule sets `r1 ⊆ r2` (as
bitsets), every segment accepted under `r2` is accepted under `r1`: stricter
rule sets only reject more. -/
theorem CheckPathSegment_monotone (r1 r2 : Nat) (name : List Nat)
    (hsub : r1 &&& r2 = r1) (h : CheckPathSegment r2 name = none) :
    CheckPathSegment r1 name = none := by
  rw [cps_none_iff] at h ⊢
  obtain ⟨hbad, hu2, hb2, hp2⟩ := h
  have hes : eff r1 &&& eff r2 = eff r1 := eff_subset hsub
  have hscan1 : byteScan (eff r1) name = none := by
    rw [byteScan_none_iff] at hb2 ⊢
    intro c hc
    exact land_subset_trans hes (hb2 c hc)
  refine ⟨hbad, ?_, hscan1, ?_⟩
  · unfold utf8Stage at hu2 ⊢
    split_ifs with hc1
    · rcases utf8cond_cases hes hc1 with hc2 | hA
      · rw [if_pos hc2] at hu2
        exact hu2
      · unfold utf8ScanLoop
        apply utf8ScanGo_ascii
        intro b hb
        rw [byteScan_none_iff] at hb2
        have hcon : flags b &&& eff r2 = eff r2 := hb2 b hb
        have hcon1 : eff r2 &&& flags b = eff r2 := by rw [Nat.land_comm]; exact hcon
        have hfa : flags b &&& ASCIIOnly ≠ 0 := subset_land_ne hcon1 hA
        have hb256 : b < 256 := by
          by_contra hge
          rw [flags_ge256 b (by omega)] at hfa
          simp at hfa
        exact flags_asciionly_lt128 b hb256 hfa
    · rfl
  · rw [posChecks_none_iff] at hp2 ⊢
    obtain ⟨hs, ha, hw, hn⟩ := hp2
    refine ⟨?_, ?_, ?_, ?_⟩
    · rintro ⟨hbit, hchar⟩
      exact hs ⟨subset_land_ne hes hbit, hchar⟩
    · rintro ⟨hbit, hchar⟩
      exact ha ⟨subset_land_ne hes hbit, hchar⟩
    · intro hbit
      exact hw (subset_land_ne hes hbit)
    · rintro ⟨hbit, hchar⟩
      exact hn ⟨subset_land_ne hes hbit, hchar⟩

/-- C1 witness: instantiation at `r1 = ShellSafe ⊆ r2 = ShellSafe|NotHidden`
on the segment `"ab"`. -/
theorem CheckPathSegment_monotone_witness :
    ShellSafe &&& (ShellSafe ||| NotHidden) = ShellSafe ∧
      CheckPathSegment (ShellSafe ||| NotHidden) [97, 98] = none ∧
      CheckPathSegment ShellSafe [97, 98] = none :=
  ⟨by decide, by decide,
    CheckPathSegment_monotone ShellSafe (ShellSafe ||| NotHidden) [97, 98] (by decide) (by decide)⟩

/-- C2: universal rejections.  Under every rule set, the empty segment, `"."`
and `".."` are rejected with kind `errBad` (`ReservedSegmentName`), and any
segment containing the separator byte 47 or the null byte 0 is rejected. -/
theorem CheckPathSegment_universal_rejections :
    (∀ r : Nat,
      CheckPathSegment r [] = some { name := ([] : List Nat), err := errBad } ∧
      CheckPathSegment r [46] = some { name := [46], err := errBad } ∧
      CheckPathSegment r [46, 46] = some { name := [46, 46], err := errBad }) ∧
    ∀ (r : Nat) (name : List Nat), (47 ∈ name ∨ 0 ∈ name) →
      ∃ e, CheckPathSegment r name = some e := by
  constructor
  · intro r
    refine ⟨?_, ?_, ?_⟩ <;> simp [CheckPathSegment]
  · intro r name hmem
    rcases he : CheckPathSegment r name with - | e
    · exfalso
      rw [cps_none_iff] at he
      obtain ⟨-, -, hbscan, -⟩ := he
      rw [byteScan_none_iff] at hbscan
      rcases hmem with hm | hm
      · have h47 := hbscan 47 hm
        rw [(by decide : flags 47 = 0)] at h47
        simp at h47
        exact eff_ne_zero r h47.symm
      · have h0 := hbscan 0 hm
        rw [(by decide : flags 0 = 0)] at h0
        simp at h0
        exact eff_ne_zero r h0.symm
    · exact ⟨e, rfl⟩

/-- C2 witness: instantiation at the empty rule set and the segment `"a/"`. -/
theorem CheckPathSegment_universal_rejections_witness :
    CheckPathSegment Any [] = some { name := ([] : List Nat), err := errBad } ∧
      ∃ e, CheckPathSegment Any [97, 47] = some e :=
  ⟨(CheckPathSegment_universal_rejections.1 Any).1,
    CheckPathSegment_universal_rejections.2 Any [97, 47] (Or.inl (by decide))⟩

/-- C3 counterexample: the byte 0x80 carries the `ShellSafe` constraint, and
the segment `"\u0080"` (bytes `C2 80`), which contains non-ASCII bytes, is
accepted under the rule set `ShellSafe` — contradicting the claim that any
rule set with a non-encoding selectable constraint and no `ASCIIOnly` rejects
segments containing non-ASCII bytes. -/
theorem c3_counterexample :
    flags 128 &&& ShellSafe = ShellSafe ∧ CheckPathSegment ShellSafe [194, 128] = none := by
  decide

/-- C3 (amended): every non-ASCII byte is classified as satisfying all
constraints except `ASCIIOnly` (plus `always`); consequently the byte scan
rejects a segment containing a non-ASCII byte exactly under rule sets that
request `ASCIIOnly`, with kind `errAny`. -/
theorem flags_nonASCII_amended :
    (∀ b : Nat, b < 256 → 128 ≤ b → flags b = andNot (Strict ||| always) ASCIIOnly) ∧
    ∀ (r : Nat) (name : List Nat), r &&& ASCIIOnly ≠ 0 →
      (∃ b ∈ name, 128 ≤ b) → (∀ b ∈ name, b < 256) →
      ∃ e, CheckPathSegment r name = some e ∧ e.err = errAny := by
  refine ⟨flags_high, ?_⟩
  intro r name hA hhigh hbytes
  obtain ⟨b, hbmem, hb128⟩ := hhigh
  have hb256 : b < 256 := hbytes b hbmem
  have heffA : eff r &&& ASCIIOnly ≠ 0 := by
    rw [eff_land_ASCIIOnly]
    exact hA
  have hbad : ¬(name = [] ∨ name = [46] ∨ name = [46, 46]) := by
    rintro (rfl | rfl | rfl) <;> simp at hbmem <;> omega
  have hfa : flags b &&& ASCIIOnly = 0 := by
    rw [flags_high b hb256 hb128]
    decide
  have hnotcontain : flags b &&& eff r ≠ eff r := by
    intro hcon
    have hcon1 : eff r &&& flags b = eff r := by rw [Nat.land_comm]; exact hcon
    have := subset_land_ne hcon1 heffA
    rw [hfa] at this
    exact this rfl
  have hscan : byteScan (eff r) name ≠ none := by
    intro hnone
    rw [byteScan_none_iff] at hnone
    exact hnotcontain (hnone b hbmem)
  have hcond : ¬(eff r &&& (ASCIIOnly ||| ValidUTF8) = ValidUTF8) := by
    intro hc
    rw [(by decide : (ASCIIOnly ||| ValidUTF8 : Nat) = 3)] at hc
    have h31 : (eff r &&& 3) &&& 1 = eff r &&& 1 := by
      rw [Nat.land_assoc, (by decide : (3 &&& 1 : Nat) = 1)]
    rw [hc, (by decide : (ValidUTF8 : Nat) &&& 1 = 0)] at h31
    apply heffA
    show eff r &&& 1 = 0
    omega
  have hstage : utf8Stage (eff r) name = none := by
    unfold utf8Stage
    exact if_neg hcond
  rcases he : CheckPathSegment r name with - | e
  · exfalso
    rw [cps_none_iff] at he
    exact hscan he.2.2.1
  · refine ⟨e, rfl, ?_⟩
    rcases cps_some_cases r name e he with ⟨hb, -⟩ | h1 | ⟨-, h2⟩ | ⟨-, h2, -⟩
    · exact absurd hb hbad
    · rw [hstage] at h1
      cases h1
    · exact (byteScanAux_some _ _ _ _ _ h2).1
    · exact absurd h2 hscan

/-- C3 amended witness: instantiation at `r = ASCIIOnly` and the segment
consisting of the single byte 0x80. -/
theorem flags_nonASCII_amended_witness :
    ∃ e, CheckPathSegment ASCIIOnly [128] = some e ∧ e.err = errAny :=
  flags_nonASCII_amended.2 ASCIIOnly [128] (by decide) ⟨128, by decide, by decide⟩
    (by decide)

/-- C4: the code's guard for `errNonASCII` is `r&ASCIIOnly != 0 &&
r&ASCIIOnly == 0`, which never holds; with `ASCIIOnly` requested and a
non-ASCII first failing byte, the scan reports kind `errAny`
(`DisallowedByte`) instead of the claimed `errNonASCII` (`NonASCIIByte`). -/
theorem c4_nonASCII_kind_unreachable :
    CheckPathSegment ASCIIOnly [128] =
      some { name := [128], err := errAny, byte := 128 } ∧ errAny ≠ errNonASCII := by
  decide

/-- `eff` preserves the `ValidUTF8` bit. -/
theorem eff_land_ValidUTF8 (r : Nat) : eff r &&& ValidUTF8 = r &&& ValidUTF8 := by
  have h := eff_land_bit r 1 (by norm_num)
  rw [(by norm_num : (2 : Nat) ^ 1 = 2)] at h
  show eff r &&& 2 = r &&& 2
  exact h

/-- `eff` preserves the `ShellSafe` bit. -/
theorem eff_land_ShellSafe (r : Nat) : eff r &&& ShellSafe = r &&& ShellSafe := by
  have h := eff_land_bit r 3 (by norm_num)
  rw [(by norm_num : (2 : Nat) ^ 3 = 8)] at h
  show eff r &&& 8 = r &&& 8
  exact h

/-- `eff` preserves the `ArgumentSafe` bit. -/
theorem eff_land_ArgumentSafe (r : Nat) : eff r &&& ArgumentSafe = r &&& ArgumentSafe := by
  have h := eff_land_bit r 4 (by norm_num)
  rw [(by norm_num : (2 : Nat) ^ 4 = 16)] at h
  show eff r &&& 16 = r &&& 16
  exact h

/-- `eff` preserves the `WindowsSafe` bit. -/
theorem eff_land_WindowsSafe (r : Nat) : eff r &&& WindowsSafe = r &&& WindowsSafe := by
  have h := eff_land_bit r 5 (by norm_num)
  rw [(by norm_num : (2 : Nat) ^ 5 = 32)] at h
  show eff r &&& 32 = r &&& 32
  exact h

/-- C10: complete characterization of the empty rule set `Any`.  A segment is
accepted under `Any` exactly when it is not empty, `"."` or `".."` and
contains neither the separator byte nor the null byte; in particular control
bytes, invalid UTF-8, shell metacharacters, Windows-reserved characters and
names, leading `-`, `~`, `.` and trailing space are all accepted. -/
theorem Any_characterization :
    (∀ name : List Nat, (∀ b ∈ name, b < 256) →
      (CheckPathSegment Any name = none ↔
        ¬(name = [] ∨ name = [46] ∨ name = [46, 46]) ∧ 47 ∉ name ∧ 0 ∉ name)) ∧
    CheckPathSegment Any [1, 255, 124, 60, 45, 126, 32, 36] = none ∧
    CheckPathSegment Any [99, 111, 110] = none ∧
    CheckPathSegment Any [46, 102, 111, 111] = none ∧
    CheckPathSegment Any [97, 98, 32] = none := by
  refine ⟨?_, by decide, by decide, by decide, by decide⟩
  intro name hbytes
  have heff : eff Any = 128 := by decide
  rw [cps_none_iff, heff]
  constructor
  · rintro ⟨hbad, -, hbscan, -⟩
    rw [byteScan_none_iff] at hbscan
    refine ⟨hbad, ?_, ?_⟩
    · intro hm
      have h := hbscan 47 hm
      rw [(by decide : flags 47 = 0)] at h
      simp at h
    · intro hm
      have h := hbscan 0 hm
      rw [(by decide : flags 0 = 0)] at h
      simp at h
  · rintro ⟨hbad, h47, h0⟩
    refine ⟨hbad, ?_, ?_, ?_⟩
    · unfold utf8Stage
      rw [if_neg]
      decide
    · rw [byteScan_none_iff]
      intro c hc
      have hc256 : c < 256 := hbytes c hc
      have hc0 : c ≠ 0 := fun h => h0 (h ▸ hc)
      have hc47 : c ≠ 47 := fun h => h47 (h ▸ hc)
      exact (flags_always_iff c hc256).mpr ⟨hc0, hc47⟩
    · rw [posChecks_none_iff]
      refine ⟨?_, ?_, ?_, ?_⟩
      · rintro ⟨hb, -⟩
        exact hb (by decide)
      · rintro ⟨hb, -⟩
        exact hb (by decide)
      · intro hb
        exact absurd (by decide) hb
      · rintro ⟨hb, -⟩
        exact hb (by decide)

/-- C10 witness: instantiation at the one-byte segment `"a"`. -/
theorem Any_characterization_witness : CheckPathSegment Any [97] = none :=
  (Any_characterization.1 [97] (by decide)).mpr ⟨by decide, by decide, by decide⟩

/-- C7: independent leading-character rules.  `ShellSafe` rejects any segment
whose first character is `~`; `ArgumentSafe` rejects any segment whose first
character is `-`; the kinds on clean segments are `errFirst`
(`LeadingCharacter`); and `ShellSafe` alone accepts `"-flag"`. -/
theorem leading_char_rules :
    (∀ (r : Nat) (name : List Nat), r &&& ShellSafe ≠ 0 → firstRune name = 126 →
      ∃ e, CheckPathSegment r name = some e) ∧
    (∀ (r : Nat) (name : List Nat), r &&& ArgumentSafe ≠ 0 → firstRune name = 45 →
      ∃ e, CheckPathSegment r name = some e) ∧
    CheckPathSegment ShellSafe [126, 117, 115, 101, 114] =
      some { name := [126, 117, 115, 101, 114], err := errFirst, char := 126 } ∧
    CheckPathSegment ArgumentSafe [45, 102, 108, 97, 103] =
      some { name := [45, 102, 108, 97, 103], err := errFirst, char := 45 } ∧
    CheckPathSegment ShellSafe [45, 102, 108, 97, 103] = none := by
  refine ⟨?_, ?_, by decide, by decide, by decide⟩
  · intro r name hbit hfirst
    rcases he : CheckPathSegment r name with - | e
    · exfalso
      rw [cps_none_iff] at he
      obtain ⟨-, -, -, hpos⟩ := he
      rw [posChecks_none_iff] at hpos
      apply hpos.1
      refine ⟨?_, hfirst⟩
      rw [eff_land_ShellSafe]
      exact hbit
    · exact ⟨e, rfl⟩
  · intro r name hbit hfirst
    rcases he : CheckPathSegment r name with - | e
    · exfalso
      rw [cps_none_iff] at he
      obtain ⟨-, -, -, hpos⟩ := he
      rw [posChecks_none_iff] at hpos
      apply hpos.2.1
      refine ⟨?_, hfirst⟩
      rw [eff_land_ArgumentSafe]
      exact hbit
    · exact ⟨e, rfl⟩

/-- C7 witness: instantiation of the `ShellSafe` leading-`~` rule at the
one-byte segment `"~"`. -/
theorem leading_char_rules_witness : ∃ e, CheckPathSegment ShellSafe [126] = some e :=
  leading_char_rules.1 ShellSafe [126] (by decide) (by decide)

/-! ## IndexByte and reserved-name machinery -/

/-- `strings.IndexByte` finds nothing exactly when the byte is absent. -/
theorem indexByte_none_iff (l : List Nat) (b : Nat) : indexByte l b = none ↔ b ∉ l := by
  induction l with
  | nil => simp [indexByte]
  | cons c t ih =>
    simp only [indexByte]
    split_ifs with hc
    · subst hc
      simp
    · rw [Option.map_eq_none', ih]
      have hbc : b ≠ c := fun h => hc h.symm
      simp [List.mem_cons, hbc]

/-- A found index is in range, points at the byte, and nothing before it is
the byte. -/
theorem indexByte_some (l : List Nat) (b i : Nat) (h : indexByte l b = some i) :
    i < l.length ∧ l.getD i 0 = b ∧ ∀ j < i, l.getD j 0 ≠ b := by
  induction l generalizing i with
  | nil => simp [indexByte] at h
  | cons c t ih =>
    simp only [indexByte] at h
    split_ifs at h with hc
    · cases h
      subst hc
      exact ⟨by simp, by simp, by omega⟩
    · cases hidx : indexByte t b with
      | none =>
        rw [hidx] at h
        simp at h
      | some i0 =>
        rw [hidx] at h
        simp at h
        subst h
        obtain ⟨h1, h2, h3⟩ := ih i0 hidx
        refine ⟨by simp; omega, by simpa using h2, ?_⟩
        intro j hj
        cases j with
        | zero => simpa using hc
        | succ j0 =>
          simp only [List.getD_cons_succ]
          exact h3 j0 (by omega)

/-- If the first `.` is at `i` and no `.` follows position `i`, the segment
contains at most one `.`. -/
theorem indexByte_count (l : List Nat) (b i : Nat) (h : indexByte l b = some i)
    (h2 : indexByte (l.drop (i + 1)) b = none) : List.count b l ≤ 1 := by
  induction l generalizing i with
  | nil => simp [indexByte] at h
  | cons c t ih =>
    simp only [indexByte] at h
    split_ifs at h with hc
    · cases h
      subst hc
      simp only [List.drop_succ_cons, List.drop_zero] at h2
      have hnot := (indexByte_none_iff t c).mp h2
      rw [List.count_cons_self, List.count_eq_zero.mpr hnot]
    · cases hidx : indexByte t b with
      | none =>
        rw [hidx] at h
        simp at h
      | some i0 =>
        rw [hidx] at h
        simp at h
        subst h
        have h2a : indexByte (t.drop (i0 + 1)) b = none := by
          simpa using h2
        have hle := ih i0 hidx h2a
        have hbc : b ≠ c := fun hx => hc hx.symm
        rw [List.count_cons_of_ne hbc]
        exact hle

/-- The reserved-name check only applies to segments with at most one `.`. -/
theorem windowsBase_count (name b0 : List Nat) (h : windowsBase name = some b0) :
    List.count 46 name ≤ 1 := by
  unfold windowsBase at h
  cases hidx : indexByte name 46 with
  | none =>
    have hnot := (indexByte_none_iff name 46).mp hidx
    rw [List.count_eq_zero.mpr hnot]
    omega
  | some i =>
    rw [hidx] at h
    dsimp only at h
    split_ifs at h with hrest
    exact indexByte_count name 46 i hidx hrest

/-- A UTF-8-stage failure is the `errInvalidUTF8` error. -/
theorem utf8Stage_some (r : Nat) (name : List Nat) (e : ErrData)
    (h : utf8Stage r name = some e) : e = { name := name, err := errInvalidUTF8 } := by
  unfold utf8Stage at h
  by_cases hc : r &&& (ASCIIOnly ||| ValidUTF8) = ValidUTF8
  · rw [if_pos hc] at h
    exact utf8ScanGo_some _ _ _ _ h
  · rw [if_neg hc] at h
    cases h

/-- C6: the Windows reserved-name check.  `"con"`, `"NUL.TXT"` and `"lpt1"`
are rejected with kind `errWReserved` under `WindowsSafe`, `"nul.txt.foo"` is
accepted; and in general a `errWReserved` outcome requires `WindowsSafe`, a
segment with at most one `.`, and a case-folded base name of length 3 or 4
that is a member of the reserved-name set. -/
theorem windows_reserved_names :
    CheckPathSegment WindowsSafe [99, 111, 110] =
      some { name := [99, 111, 110], err := errWReserved, base := [99, 111, 110] } ∧
    CheckPathSegment WindowsSafe [78, 85, 76, 46, 84, 88, 84] =
      some { name := [78, 85, 76, 46, 84, 88, 84], err := errWReserved, base := [110, 117, 108] } ∧
    CheckPathSegment WindowsSafe [108, 112, 116, 49] =
      some { name := [108, 112, 116, 49], err := errWReserved, base := [108, 112, 116, 49] } ∧
    CheckPathSegment WindowsSafe [110, 117, 108, 46, 116, 120, 116, 46, 102, 111, 111] = none ∧
    ∀ (r : Nat) (name : List Nat) (e : ErrData),
      CheckPathSegment r name = some e → e.err = errWReserved →
      r &&& WindowsSafe ≠ 0 ∧ List.count 46 name ≤ 1 ∧
        ∃ b0, windowsBase name = some b0 ∧ (b0.length = 3 ∨ b0.length = 4) ∧
          toLower b0 ∈ windowsReserved ∧ e.base = toLower b0 := by
  refine ⟨by decide, by decide, by decide, by decide, ?_⟩
  intro r name e he herr
  rcases cps_some_cases r name e he with ⟨-, rfl⟩ | h1 | ⟨-, h2⟩ | ⟨-, -, h3⟩
  · simp [errWReserved, errBad] at herr
  · rw [utf8Stage_some _ _ _ h1] at herr
    simp [errWReserved, errInvalidUTF8] at herr
  · have := (byteScanAux_some _ _ _ _ _ h2).1
    rw [this] at herr
    simp [errWReserved, errAny] at herr
  · rcases posChecks_some _ _ _ h3 with ⟨hf, -⟩ | ⟨hW, hwc⟩
    · rw [hf] at herr
      simp [errWReserved, errFirst] at herr
    · rcases windowsCheck_some _ _ _ hwc with ⟨hl, -⟩ | ⟨-, -, b0, hb0, hlen, hmem, hbase⟩
      · rw [hl] at herr
        simp [errWReserved, errLast] at herr
      · refine ⟨?_, windowsBase_count name b0 hb0, b0, hb0, hlen, hmem, hbase⟩
        rw [← eff_land_WindowsSafe]
        exact hW

/-- C6 witness: the general necessity conditions instantiated at the rejected
segment `"con"` under `WindowsSafe`. -/
theorem windows_reserved_names_witness :
    WindowsSafe &&& WindowsSafe ≠ 0 ∧ List.count 46 [99, 111, 110] ≤ 1 ∧
      ∃ b0, windowsBase [99, 111, 110] = some b0 ∧ (b0.length = 3 ∨ b0.length = 4) ∧
        toLower b0 ∈ windowsReserved ∧
        ({ name := [99, 111, 110], err := errWReserved, base := [99, 111, 110] } : ErrData).base
          = toLower b0 :=
  windows_reserved_names.2.2.2.2 WindowsSafe [99, 111, 110]
    { name := [99, 111, 110], err := errWReserved, base := [99, 111, 110] }
    (by decide) (by decide)

/-- C9: the debug rendering.  The `ArgumentSafe` branch of `GoString` appends
the string `"ShellSafe"`, so a rule set consisting of `ArgumentSafe` renders
as `"ShellSafe"` (and `ShellSafe|ArgumentSafe` as `"ShellSafe|ShellSafe"`),
not as a listing containing `"ArgumentSafe"`; the empty rule set does render
as `"Any"`. -/
theorem goString_argumentSafe_bug :
    GoString ArgumentSafe = "ShellSafe" ∧
      GoString (ShellSafe ||| ArgumentSafe) = "ShellSafe|ShellSafe" ∧
      GoString Any = "Any" ∧ ("ShellSafe" : String) ≠ "ArgumentSafe" := by
  refine ⟨?_, ?_, ?_, ?_⟩ <;> decide

/-! ## Reference path validator (C5) -/

/-- Reference segmentation of a path: split on the separator byte
(`[l]` when the separator is absent, so the empty path splits as `[[]]`). -/
def splitOnSlash : List Nat → List (List Nat)
  | [] => [[]]
  | b :: t =>
    match indexByte (b :: t) 47 with
    | none => [b :: t]
    | some i => (b :: t).take i :: splitOnSlash ((b :: t).drop (i + 1))
termination_by l => l.length
decreasing_by
  simp only [List.length_drop, List.length_cons]
  omega

/-- Reference processing of the split segments, following the specification's
path-validation algorithm (section 4.4): on each non-final part, an empty
part is a double separator; a final empty part after the current one is a
trailing separator; otherwise the part is delegated to the segment validator
and its failure re-tagged as path-scoped; the final part is delegated
directly. -/
def checkParts (r : Nat) (pname : List Nat) : List (List Nat) → Option ErrData
  | [] => none
  | [p] =>
    match CheckPathSegment r p with
    | some e => some { e with isPath := true, path := pname }
    | none => none
  | p :: parts =>
    if p = [] then some { isPath := true, path := pname, err := errDoubleSlash }
    else if parts = [[]] then some { isPath := true, path := pname, err := errTrailingSlash }
    else
      match CheckPathSegment r p with
      | some e => some { e with isPath := true, path := pname }
      | none => checkParts r pname parts

/-- Reference path validator, following the specification's wording: empty
path, then absolute path, then the per-part processing of the `/`-split. -/
def pathValidatorSpec (r : Nat) (name : List Nat) : Option ErrData :=
  if name = [] then some { isPath := true, path := name, err := errEmpty }
  else if name.headD 0 = 47 then some { isPath := true, path := name, err := errAbsolute }
  else checkParts r name (splitOnSlash name)

/-- The split of a path is never the empty list of parts. -/
theorem splitOnSlash_ne_nil (l : List Nat) : splitOnSlash l ≠ [] := by
  cases l with
  | nil => simp [splitOnSlash]
  | cons b t =>
    rw [splitOnSlash]
    cases hidx : indexByte (b :: t) 47 <;> simp

/-- The split of a nonempty path is never the single empty part. -/
theorem splitOnSlash_ne_single_nil (l : List Nat) (h : l ≠ []) : splitOnSlash l ≠ [[]] := by
  cases l with
  | nil => exact absurd rfl h
  | cons b t =>
    rw [splitOnSlash]
    cases hidx : indexByte (b :: t) 47 with
    | none => simp
    | some i =>
      intro hx
      rw [List.cons_eq_cons] at hx
      exact splitOnSlash_ne_nil _ hx.2

/-- The `always` bit keeps the effective rule set inside eight bits. -/
theorem land_255_eff (r : Nat) : 255 &&& eff r = eff r := by
  apply Nat.eq_of_testBit_eq
  intro i
  simp only [Nat.testBit_land, eff, Nat.testBit_lor]
  by_cases hi : i < 8
  · have h255 : (255 : Nat).testBit i = true := by interval_cases i <;> decide
    rw [h255]
    simp
  · have hpow : (256 : Nat) ≤ 2 ^ i := by
      calc (256 : Nat) = 2 ^ 8 := by norm_num
        _ ≤ 2 ^ i := Nat.pow_le_pow_right (by norm_num) (by omega)
    have h255 : (255 : Nat).testBit i = false := Nat.testBit_lt_two_pow (by omega)
    have h127 : Strict.testBit i = false := Nat.testBit_lt_two_pow (by
      show (127 : Nat) < 2 ^ i
      omega)
    have h128 : always.testBit i = false := Nat.testBit_lt_two_pow (by
      show (128 : Nat) < 2 ^ i
      omega)
    rw [h255, h128, h127]
    simp

/-- First rune of a one-byte ASCII segment. -/
theorem firstRune_single (c : Nat) (h : c < 128) : firstRune [c] = c := by
  simp [firstRune, utf8DecodeRune, h]

/-- Last rune of a one-byte ASCII segment. -/
theorem lastRune_single (c : Nat) (h : c < 128) : lastRune [c] = c := by
  simp [lastRune, utf8DecodeLastRune, h]

/-- A one-byte segment whose byte carries every flag and is not one of the
position-checked characters is accepted under every rule set. -/
theorem cps_plain (r c : Nat) (hflags : flags c = 255) (hlt : c < 128)
    (h126 : c ≠ 126) (h45 : c ≠ 45) (h46 : c ≠ 46) (h32 : c ≠ 32) :
    CheckPathSegment r [c] = none := by
  rw [cps_none_iff]
  refine ⟨?_, ?_, ?_, ?_⟩
  · rintro (h | h | h)
    · simp at h
    · simp at h
      exact h46 h
    · simp at h
  · unfold utf8Stage
    split_ifs
    · exact utf8ScanGo_ascii _ _ _ (by intro b hb; simp at hb; omega)
    · rfl
  · rw [byteScan_none_iff]
    intro b hb
    simp at hb
    subst hb
    rw [hflags]
    exact land_255_eff r
  · rw [posChecks_none_iff]
    refine ⟨?_, ?_, ?_, ?_⟩
    · rintro ⟨-, hf⟩
      rw [firstRune_single c hlt] at hf
      exact h126 hf
    · rintro ⟨-, hf⟩
      rw [firstRune_single c hlt] at hf
      exact h45 hf
    · intro hW2
      rw [lastRune_single c hlt]
      simp [windowsCheck, windowsBase, indexByte, h46, h32]
    · rintro ⟨-, hf⟩
      rw [firstRune_single c hlt] at hf
      exact h46 hf

/-- The split of the empty remainder. -/
theorem splitOnSlash_nil : splitOnSlash ([] : List Nat) = [[]] := by
  rw [splitOnSlash]

/-- One unfolding of the split on a nonempty path. -/
theorem splitOnSlash_cons (b : Nat) (t : List Nat) :
    splitOnSlash (b :: t) =
      match indexByte (b :: t) 47 with
      | none => [b :: t]
      | some i => (b :: t).take i :: splitOnSlash ((b :: t).drop (i + 1)) := by
  rw [splitOnSlash]

/-- The path-splitting loop agrees with the reference processing of the
`/`-split parts. -/
theorem checkPathGo_eq_checkParts (r : Nat) (pname : List Nat) :
    ∀ (fuel : Nat) (rest : List Nat), rest ≠ [] → rest.length ≤ fuel →
      checkPathGo r pname fuel rest = checkParts r pname (splitOnSlash rest) := by
  intro fuel
  induction fuel with
  | zero =>
    intro rest hne hlen
    cases rest with
    | nil => exact absurd rfl hne
    | cons b t => simp at hlen
  | succ fuel ih =>
    intro rest hne hlen
    cases rest with
    | nil => exact absurd rfl hne
    | cons b t =>
      rw [splitOnSlash_cons]
      simp only [checkPathGo]
      cases hidx : indexByte (b :: t) 47 with
      | none => rfl
      | some i =>
        cases i with
        | zero =>
          dsimp only
          rcases hps : splitOnSlash (List.drop (0 + 1) (b :: t)) with - | ⟨q, qs⟩
          · exact absurd hps (splitOnSlash_ne_nil _)
          · simp [checkParts]
        | succ i0 =>
          dsimp only
          have hbound := (indexByte_some _ 47 _ hidx).1
          have hpart : List.take (i0 + 1) (b :: t) ≠ [] := by
            rw [List.take_succ_cons]
            simp
          by_cases hrest1 : List.drop (i0 + 1 + 1) (b :: t) = []
          · rw [if_pos hrest1, hrest1, splitOnSlash_nil]
            simp [checkParts, hpart]
          · rw [if_neg hrest1]
            rcases hps : splitOnSlash (List.drop (i0 + 1 + 1) (b :: t)) with - | ⟨q, qs⟩
            · exact absurd hps (splitOnSlash_ne_nil _)
            · have hnsn : q :: qs ≠ [[]] := by
                rw [← hps]
                exact splitOnSlash_ne_single_nil _ hrest1
              have hih : checkPathGo r pname fuel (List.drop (i0 + 1 + 1) (b :: t)) =
                  checkParts r pname (splitOnSlash (List.drop (i0 + 1 + 1) (b :: t))) := by
                apply ih _ hrest1
                simp only [List.length_drop, List.length_cons] at hlen ⊢
                omega
              rw [hps] at hih
              cases hcps : CheckPathSegment r (List.take (i0 + 1) (b :: t)) with
              | none =>
                simp only [checkParts, if_neg hpart, if_neg hnsn]
                rw [hcps]
                exact hih
              | some e =>
                simp only [checkParts, if_neg hpart, if_neg hnsn]
                rw [hcps]

/-- The path validator agrees with the reference validator on every input. -/
theorem CheckPath_eq_spec (r : Nat) (name : List Nat) :
    CheckPath r name = pathValidatorSpec r name := by
  unfold CheckPath pathValidatorSpec checkPathLoop
  cases name with
  | nil => rfl
  | cons b t =>
    simp only [List.length_cons, List.getD_cons_zero, List.headD_cons]
    rw [if_neg (by omega : ¬t.length + 1 = 0), if_neg (by simp : ¬(b :: t) = [])]
    by_cases hb : b = 47
    · rw [if_pos hb, if_pos hb]
    · rw [if_neg hb, if_neg hb]
      exact checkPathGo_eq_checkParts r (b :: t) (b :: t).length (b :: t) (by simp) le_rfl

/-- C5: path-validation structure.  `CheckPath` agrees with the reference
validator (empty path, absolute path, then per-part processing of the
`/`-split with double-separator/trailing-separator rejection, delegation of
each part to `CheckPathSegment` in order, and path-scoped re-tagging of the
first failure); the empty path yields `errEmpty`, a leading separator yields
`errAbsolute`, `"a//b"` yields `errDoubleSlash` and `"a/b/"` yields
`errTrailingSlash` under every rule set, and `CheckPath Strict "a/b/c"`
accepts. -/
theorem CheckPath_structure :
    (∀ (r : Nat) (name : List Nat), CheckPath r name = pathValidatorSpec r name) ∧
    (∀ r : Nat, CheckPath r [] = some { isPath := true, path := [], err := errEmpty }) ∧
    (∀ (r : Nat) (name : List Nat), name ≠ [] → name.headD 0 = 47 →
      CheckPath r name = some { isPath := true, path := name, err := errAbsolute }) ∧
    (∀ r : Nat, CheckPath r [97, 47, 47, 98] =
      some { isPath := true, path := [97, 47, 47, 98], err := errDoubleSlash }) ∧
    (∀ r : Nat, CheckPath r [97, 47, 98, 47] =
      some { isPath := true, path := [97, 47, 98, 47], err := errTrailingSlash }) ∧
    CheckPath Strict [97, 47, 98, 47, 99] = none := by
  have hsplit1 : splitOnSlash [97, 47, 47, 98] = [[97], [], [98]] := by
    simp [splitOnSlash_cons, splitOnSlash_nil, indexByte]
  have hsplit2 : splitOnSlash [97, 47, 98, 47] = [[97], [98], []] := by
    simp [splitOnSlash_cons, splitOnSlash_nil, indexByte]
  refine ⟨CheckPath_eq_spec, ?_, ?_, ?_, ?_, by decide⟩
  · intro r
    rfl
  · intro r name hne h47
    cases name with
    | nil => exact absurd rfl hne
    | cons b t =>
      simp only [List.headD_cons] at h47
      unfold CheckPath
      rw [if_neg (by simp), if_pos (by simpa using h47)]
  · intro r
    rw [CheckPath_eq_spec]
    unfold pathValidatorSpec
    rw [if_neg (by simp), if_neg (by simp), hsplit1]
    simp only [checkParts]
    rw [if_neg (by simp), if_neg (by simp),
      cps_plain r 97 (by decide) (by decide) (by decide) (by decide) (by decide) (by decide)]
    simp [checkParts]
  · intro r
    rw [CheckPath_eq_spec]
    unfold pathValidatorSpec
    rw [if_neg (by simp), if_neg (by simp), hsplit2]
    simp only [checkParts]
    rw [if_neg (by simp), if_neg (by simp),
      cps_plain r 97 (by decide) (by decide) (by decide) (by decide) (by decide) (by decide)]
    simp [checkParts]

/-- C5 witness: the absolute-path conjunct instantiated at the path `"/a"`
under the empty rule set. -/
theorem CheckPath_structure_witness :
    CheckPath Any [47, 97] = some { isPath := true, path := [47, 97], err := errAbsolute } :=
  CheckPath_structure.2.2.1 Any [47, 97] (by decide) (by decide)

/-! ## UTF-8 decoder correctness (C8) -/

/-- Decoding the standard encoding of a scalar value succeeds and consumes
exactly that encoding. -/
theorem utf8DecodeRune_encode (c : Nat) (hs : UnicodeScalar c) (rest : List Nat) :
    utf8DecodeRune (utf8EncodeChar c ++ rest) = (c, (utf8EncodeChar c).length) := by
  obtain ⟨hlt, hsurr⟩ := hs
  by_cases h1 : c < 0x80
  · rw [utf8EncodeChar, if_pos h1]
    simp only [List.cons_append, List.nil_append, utf8DecodeRune, if_pos h1]
    simp
  · by_cases h2 : c < 0x800
    · rw [utf8EncodeChar, if_neg h1, if_pos h2]
      simp only [List.cons_append, List.nil_append, utf8DecodeRune]
      rw [if_neg (by omega), if_neg (by omega), if_pos (by omega : 0xC0 + c / 0x40 ≤ 0xDF)]
      rw [if_neg (by omega)]
      simp only [List.length_cons, List.length_nil, Prod.mk.injEq, and_true]
      have e1 : (0xC0 + c / 0x40) % 0x20 = c / 0x40 := by
        have hb : c / 0x40 < 0x20 := by omega
        generalize c / 0x40 = b at *
        omega
      have e2 : (0x80 + c % 0x40) % 0x40 = c % 0x40 := by
        have hb : c % 0x40 < 0x40 := Nat.mod_lt _ (by norm_num)
        generalize c % 0x40 = b at *
        omega
      rw [e1, e2]
      omega
    · by_cases h3 : c < 0x10000
      · rw [utf8EncodeChar, if_neg h1, if_neg h2, if_pos h3]
        simp only [List.cons_append, List.nil_append, utf8DecodeRune]
        rw [if_neg (by omega), if_neg (by omega), if_neg (by omega),
          if_pos (by omega : 0xE0 + c / 0x1000 ≤ 0xEF)]
        have hcond : ¬(0x80 + c / 0x40 % 0x40 <
              (if 0xE0 + c / 0x1000 = 0xE0 then 0xA0 else 0x80) ∨
            (if 0xE0 + c / 0x1000 = 0xED then 0x9F else 0xBF) < 0x80 + c / 0x40 % 0x40) := by
          by_cases he0 : c < 0x1000
          · rw [if_pos (by omega), if_neg (by omega)]
            omega
          · by_cases hed : 0xD000 ≤ c ∧ c < 0xE000
            · rw [if_neg (by omega), if_pos (by omega)]
              omega
            · rw [if_neg (by omega), if_neg (by omega)]
              omega
        rw [if_neg hcond, if_neg (by omega)]
        simp only [List.length_cons, List.length_nil, Prod.mk.injEq, and_true]
        have e1 : (0xE0 + c / 0x1000) % 0x10 = c / 0x1000 := by
          have hb : c / 0x1000 < 0x10 := by omega
          generalize c / 0x1000 = b at *
          omega
        have e2 : (0x80 + c / 0x40 % 0x40) % 0x40 = c / 0x40 % 0x40 := by
          have hb : c / 0x40 % 0x40 < 0x40 := Nat.mod_lt _ (by norm_num)
          generalize c / 0x40 % 0x40 = b at *
          omega
        have e3 : (0x80 + c % 0x40) % 0x40 = c % 0x40 := by
          have hb : c % 0x40 < 0x40 := Nat.mod_lt _ (by norm_num)
          generalize c % 0x40 = b at *
          omega
        rw [e1, e2, e3]
        clear hcond
        omega
      · rw [utf8EncodeChar, if_neg h1, if_neg h2, if_neg h3]
        simp only [List.cons_append, List.nil_append, utf8DecodeRune]
        rw [if_neg (by omega), if_neg (by omega), if_neg (by omega), if_neg (by omega)]
        have hcond : ¬(0x80 + c / 0x1000 % 0x40 <
              (if 0xF0 + c / 0x40000 = 0xF0 then 0x90 else 0x80) ∨
            (if 0xF0 + c / 0x40000 = 0xF4 then 0x8F else 0xBF) < 0x80 + c / 0x1000 % 0x40) := by
          by_cases hf0 : c < 0x40000
          · rw [if_pos (by omega), if_neg (by omega)]
            omega
          · by_cases hf4 : 0x100000 ≤ c
            · rw [if_neg (by omega), if_pos (by omega)]
              omega
            · rw [if_neg (by omega), if_neg (by omega)]
              omega
        rw [if_neg hcond, if_neg (by omega), if_neg (by omega)]
        simp only [List.length_cons, List.length_nil, Prod.mk.injEq, and_true]
        have e1 : (0xF0 + c / 0x40000) % 0x8 = c / 0x40000 := by
          have hb : c / 0x40000 < 0x8 := by omega
          generalize c / 0x40000 = b at *
          omega
        have e2 : (0x80 + c / 0x1000 % 0x40) % 0x40 = c / 0x1000 % 0x40 := by
          have hb : c / 0x1000 % 0x40 < 0x40 := Nat.mod_lt _ (by norm_num)
          generalize c / 0x1000 % 0x40 = b at *
          omega
        have e3 : (0x80 + c / 0x40 % 0x40) % 0x40 = c / 0x40 % 0x40 := by
          have hb : c / 0x40 % 0x40 < 0x40 := Nat.mod_lt _ (by norm_num)
          generalize c / 0x40 % 0x40 = b at *
          omega
        have e4 : (0x80 + c % 0x40) % 0x40 = c % 0x40 := by
          have hb : c % 0x40 < 0x40 := Nat.mod_lt _ (by norm_num)
          generalize c % 0x40 = b at *
          omega
        rw [e1, e2, e3, e4]
        clear hcond
        omega

/-- A non-failing decode of a nonempty input yields a scalar value whose
standard encoding is exactly the consumed prefix. -/
theorem utf8DecodeRune_sound (s : List Nat) (hne : s ≠ [])
    (hfail : ¬((utf8DecodeRune s).1 = runeError ∧ (utf8DecodeRune s).2 = 1)) :
    UnicodeScalar (utf8DecodeRune s).1 ∧
      (utf8DecodeRune s).2 = (utf8EncodeChar (utf8DecodeRune s).1).length ∧
      s.take (utf8DecodeRune s).2 = utf8EncodeChar (utf8DecodeRune s).1 := by
  match s with
  | s0 :: rest =>
    by_cases hA : s0 < 0x80
    · have hd : utf8DecodeRune (s0 :: rest) = (s0, 1) := by
        simp [utf8DecodeRune, hA]
      rw [hd]
      refine ⟨⟨by omega, by omega⟩, ?_, ?_⟩ <;>
        rw [utf8EncodeChar, if_pos hA] <;> simp
    · by_cases hB : s0 < 0xC2 ∨ 0xF4 < s0
      · have hd : utf8DecodeRune (s0 :: rest) = (runeError, 1) := by
          simp [utf8DecodeRune, hA, hB]
        rw [hd] at hfail
        simp at hfail
      · by_cases hC : s0 ≤ 0xDF
        · match rest with
          | [] =>
            have hd : utf8DecodeRune [s0] = (runeError, 1) := by
              simp [utf8DecodeRune, hA, hB, hC]
            rw [hd] at hfail
            simp at hfail
          | s1 :: rest1 =>
            by_cases hD : s1 < 0x80 ∨ 0xBF < s1
            · have hd : utf8DecodeRune (s0 :: s1 :: rest1) = (runeError, 1) := by
                simp [utf8DecodeRune, hA, hB, hC, hD]
              rw [hd] at hfail
              simp at hfail
            · have hd : utf8DecodeRune (s0 :: s1 :: rest1) =
                  ((s0 % 0x20) * 0x40 + s1 % 0x40, 2) := by
                simp [utf8DecodeRune, hA, hB, hC, hD]
              rw [hd]
              push_neg at hB hD
              have ha : s0 % 0x20 = s0 - 0xC0 := by omega
              have hb : s1 % 0x40 = s1 - 0x80 := by omega
              rw [ha, hb]
              set a := s0 - 0xC0 with hadef
              set b := s1 - 0x80 with hbdef
              have ha2 : 2 ≤ a ∧ a ≤ 0x1F := by omega
              have hb2 : b ≤ 0x3F := by omega
              refine ⟨⟨by omega, by omega⟩, ?_, ?_⟩ <;>
                rw [utf8EncodeChar, if_neg (by omega), if_pos (by omega)]
              · simp
              · have e1 : (a * 0x40 + b) / 0x40 = a := by omega
                have e2 : (a * 0x40 + b) % 0x40 = b := by omega
                rw [e1, e2]
                simp only [List.take_succ_cons, List.take_zero, List.cons.injEq, and_true]
                constructor <;> omega
        · by_cases hE : s0 ≤ 0xEF
          · match rest with
            | [] =>
              have hd : utf8DecodeRune [s0] = (runeError, 1) := by
                simp [utf8DecodeRune, hA, hB, hC, hE]
              rw [hd] at hfail
              simp at hfail
            | [s1] =>
              have hd : utf8DecodeRune [s0, s1] = (runeError, 1) := by
                simp [utf8DecodeRune, hA, hB, hC, hE]
              rw [hd] at hfail
              simp at hfail
            | s1 :: s2 :: rest2 =>
              by_cases hD : s1 < (if s0 = 0xE0 then 0xA0 else 0x80) ∨
                  (if s0 = 0xED then 0x9F else 0xBF) < s1
              · have hd : utf8DecodeRune (s0 :: s1 :: s2 :: rest2) = (runeError, 1) := by
                  simp only [utf8DecodeRune, if_neg hA, if_neg hB, if_neg hC, if_pos hE]
                  rw [if_pos hD]
                rw [hd] at hfail
                simp at hfail
              · by_cases hF : s2 < 0x80 ∨ 0xBF < s2
                · have hd : utf8DecodeRune (s0 :: s1 :: s2 :: rest2) = (runeError, 1) := by
                    simp only [utf8DecodeRune, if_neg hA, if_neg hB, if_neg hC, if_pos hE]
                    rw [if_neg hD, if_pos hF]
                  rw [hd] at hfail
                  simp at hfail
                · have hd : utf8DecodeRune (s0 :: s1 :: s2 :: rest2) =
                      ((s0 % 0x10) * 0x1000 + (s1 % 0x40) * 0x40 + s2 % 0x40, 3) := by
                    simp only [utf8DecodeRune, if_neg hA, if_neg hB, if_neg hC, if_pos hE]
                    rw [if_neg hD, if_neg hF]
                  rw [hd]
                  push_neg at hB hD hF
                  obtain ⟨hDlo, hDhi⟩ := hD
                  have hs0 : 0xE0 ≤ s0 := by omega
                  have hs1lo : 0x80 ≤ s1 := by
                    rcases Nat.lt_or_ge s1 0x80 with h | h
                    · exfalso
                      split_ifs at hDlo <;> omega
                    · exact h
                  have hs1hi : s1 ≤ 0xBF := by
                    rcases Nat.lt_or_ge 0xBF s1 with h | h
                    · exfalso
                      split_ifs at hDhi <;> omega
                    · exact h
                  have ha : s0 % 0x10 = s0 - 0xE0 := by omega
                  have hb : s1 % 0x40 = s1 - 0x80 := by omega
                  have hc2 : s2 % 0x40 = s2 - 0x80 := by omega
                  rw [ha, hb, hc2]
                  set a := s0 - 0xE0 with hadef
                  set b := s1 - 0x80 with hbdef
                  set d := s2 - 0x80 with hddef
                  have hlow : 0x800 ≤ a * 0x1000 + b * 0x40 + d := by
                    rcases Nat.eq_zero_or_pos a with haz | hap
                    · have hE0 : s0 = 0xE0 := by omega
                      rw [if_pos hE0] at hDlo
                      omega
                    · omega
                  have hhi : a * 0x1000 + b * 0x40 + d < 0x10000 := by omega
                  have hnsurr : ¬(0xD800 ≤ a * 0x1000 + b * 0x40 + d ∧
                      a * 0x1000 + b * 0x40 + d ≤ 0xDFFF) := by
                    by_cases hED : s0 = 0xED
                    · rw [if_pos hED] at hDhi
                      have : a = 13 := by omega
                      omega
                    · have : a ≠ 13 := by omega
                      omega
                  refine ⟨⟨by omega, hnsurr⟩, ?_, ?_⟩ <;>
                    rw [utf8EncodeChar, if_neg (by omega), if_neg (by omega),
                      if_pos (by omega)]
                  · simp
                  · have e1 : (a * 0x1000 + b * 0x40 + d) / 0x1000 = a := by omega
                    have e2 : (a * 0x1000 + b * 0x40 + d) / 0x40 % 0x40 = b := by omega
                    have e3 : (a * 0x1000 + b * 0x40 + d) % 0x40 = d := by omega
                    rw [e1, e2, e3]
                    simp only [List.take_succ_cons, List.take_zero, List.cons.injEq, and_true]
                    refine ⟨by omega, by omega, by omega⟩
          · match rest with
            | [] =>
              have hd : utf8DecodeRune [s0] = (runeError, 1) := by
                simp [utf8DecodeRune, hA, hB, hC, hE]
              rw [hd] at hfail
              simp at hfail
            | [s1] =>
              have hd : utf8DecodeRune [s0, s1] = (runeError, 1) := by
                simp [utf8DecodeRune, hA, hB, hC, hE]
              rw [hd] at hfail
              simp at hfail
            | [s1, s2] =>
              have hd : utf8DecodeRune [s0, s1, s2] = (runeError, 1) := by
                simp [utf8DecodeRune, hA, hB, hC, hE]
              rw [hd] at hfail
              simp at hfail
            | s1 :: s2 :: s3 :: rest3 =>
              by_cases hD : s1 < (if s0 = 0xF0 then 0x90 else 0x80) ∨
                  (if s0 = 0xF4 then 0x8F else 0xBF) < s1
              · have hd : utf8DecodeRune (s0 :: s1 :: s2 :: s3 :: rest3) = (runeError, 1) := by
                  simp only [utf8DecodeRune, if_neg hA, if_neg hB, if_neg hC, if_neg hE]
                  rw [if_pos hD]
                rw [hd] at hfail
                simp at hfail
              · by_cases hF : s2 < 0x80 ∨ 0xBF < s2
                · have hd : utf8DecodeRune (s0 :: s1 :: s2 :: s3 :: rest3) = (runeError, 1) := by
                    simp only [utf8DecodeRune, if_neg hA, if_neg hB, if_neg hC, if_neg hE]
                    rw [if_neg hD, if_pos hF]
                  rw [hd] at hfail
                  simp at hfail
                · by_cases hG : s3 < 0x80 ∨ 0xBF < s3
                  · have hd : utf8DecodeRune (s0 :: s1 :: s2 :: s3 :: rest3) =
                        (runeError, 1) := by
                      simp only [utf8DecodeRune, if_neg hA, if_neg hB, if_neg hC, if_neg hE]
                      rw [if_neg hD, if_neg hF, if_pos hG]
                    rw [hd] at hfail
                    simp at hfail
                  · have hd : utf8DecodeRune (s0 :: s1 :: s2 :: s3 :: rest3) =
                        ((s0 % 0x8) * 0x40000 + (s1 % 0x40) * 0x1000 +
                          (s2 % 0x40) * 0x40 + s3 % 0x40, 4) := by
                      simp only [utf8DecodeRune, if_neg hA, if_neg hB, if_neg hC, if_neg hE]
                      rw [if_neg hD, if_neg hF, if_neg hG]
                    rw [hd]
                    push_neg at hB hD hF hG
                    obtain ⟨hDlo, hDhi⟩ := hD
                    have hs0 : 0xF0 ≤ s0 ∧ s0 ≤ 0xF4 := by omega
                    have hs1lo : 0x80 ≤ s1 := by
                      rcases Nat.lt_or_ge s1 0x80 with h | h
                      · exfalso
                        split_ifs at hDlo <;> omega
                      · exact h
                    have hs1hi : s1 ≤ 0xBF := by
                      rcases Nat.lt_or_ge 0xBF s1 with h | h
                      · exfalso
                        split_ifs at hDhi <;> omega
                      · exact h
                    have ha : s0 % 0x8 = s0 - 0xF0 := by omega
                    have hb : s1 % 0x40 = s1 - 0x80 := by omega
                    have hc2 : s2 % 0x40 = s2 - 0x80 := by omega
                    have hd3 : s3 % 0x40 = s3 - 0x80 := by omega
                    rw [ha, hb, hc2, hd3]
                    set a := s0 - 0xF0 with hadef
                    set b := s1 - 0x80 with hbdef
                    set d := s2 - 0x80 with hddef
                    set e := s3 - 0x80 with hedef
                    have hlow : 0x10000 ≤ a * 0x40000 + b * 0x1000 + d * 0x40 + e := by
                      rcases Nat.eq_zero_or_pos a with haz | hap
                      · have hF0 : s0 = 0xF0 := by omega
                        rw [if_pos hF0] at hDlo
                        omega
                      · omega
                    have hhi : a * 0x40000 + b * 0x1000 + d * 0x40 + e < 0x110000 := by
                      by_cases hF4 : s0 = 0xF4
                      · rw [if_pos hF4] at hDhi
                        have : a = 4 := by omega
                        omega
                      · have : a ≤ 3 := by omega
                        omega
                    refine ⟨⟨hhi, by omega⟩, ?_, ?_⟩ <;>
                      rw [utf8EncodeChar, if_neg (by omega), if_neg (by omega),
                        if_neg (by omega)]
                    · simp
                    · have e1 : (a * 0x40000 + b * 0x1000 + d * 0x40 + e) / 0x40000 = a := by
                        omega
                      have e2 : (a * 0x40000 + b * 0x1000 + d * 0x40 + e) / 0x1000 % 0x40 = b := by
                        omega
                      have e3 : (a * 0x40000 + b * 0x1000 + d * 0x40 + e) / 0x40 % 0x40 = d := by
                        omega
                      have e4 : (a * 0x40000 + b * 0x1000 + d * 0x40 + e) % 0x40 = e := by
                        omega
                      rw [e1, e2, e3, e4]
                      simp only [List.take_succ_cons, List.take_zero, List.cons.injEq, and_true]
                      refine ⟨by omega, by omega, by omega, by omega⟩

/-- The UTF-8 validity loop (with adequate fuel) accepts exactly the
well-formed byte lists. -/
theorem utf8ScanGo_none_iff (pname : List Nat) (fuel : Nat) :
    ∀ rest : List Nat, rest.length ≤ fuel →
      (utf8ScanGo pname fuel rest = none ↔ Utf8WellFormed rest) := by
  induction fuel with
  | zero =>
    intro rest hlen
    have hr : rest = [] := by
      cases rest with
      | nil => rfl
      | cons a t => simp at hlen
    subst hr
    simp only [utf8ScanGo]
    constructor
    · intro _
      exact ⟨[], by simp, by simp⟩
    · intro _
      trivial
  | succ fuel ih =>
    intro rest hlen
    cases rest with
    | nil =>
      simp only [utf8ScanGo]
      constructor
      · intro _
        exact ⟨[], by simp, by simp⟩
      · intro _
        trivial
    | cons s0 t =>
      simp only [utf8ScanGo]
      by_cases hfail : (utf8DecodeRune (s0 :: t)).1 = runeError ∧ (utf8DecodeRune (s0 :: t)).2 = 1
      · rw [if_pos hfail]
        constructor
        · intro h
          cases h
        · rintro ⟨cs, hsc, hjoin⟩
          cases cs with
          | nil => simp at hjoin
          | cons c cs1 =>
            rw [List.map_cons, List.flatten_cons] at hjoin
            have hdec := utf8DecodeRune_encode c (hsc c (by simp))
              ((cs1.map utf8EncodeChar).flatten)
            rw [← hjoin] at hdec
            rw [hdec] at hfail
            obtain ⟨h1, h2⟩ := hfail
            simp only at h1 h2
            subst h1
            rw [(by decide : (utf8EncodeChar runeError).length = 3)] at h2
            exact absurd h2 (by norm_num)
      · rw [if_neg hfail]
        obtain ⟨hsc, hlen2, htake⟩ := utf8DecodeRune_sound (s0 :: t) (by simp) hfail
        have hn1 : 1 ≤ (utf8DecodeRune (s0 :: t)).2 := utf8DecodeRune_pos _ (by simp)
        have hlen3 : ((s0 :: t).drop (utf8DecodeRune (s0 :: t)).2).length ≤ fuel := by
          simp only [List.length_drop, List.length_cons] at hlen ⊢
          omega
        rw [ih _ hlen3]
        constructor
        · rintro ⟨cs, hsc2, hj⟩
          refine ⟨(utf8DecodeRune (s0 :: t)).1 :: cs, ?_, ?_⟩
          · intro x hx
            rcases List.mem_cons.mp hx with rfl | hx
            · exact hsc
            · exact hsc2 x hx
          · rw [List.map_cons, List.flatten_cons, ← hj, ← htake]
            exact (List.take_append_drop _ (s0 :: t)).symm
        · rintro ⟨cs, hsc2, hj⟩
          cases cs with
          | nil => simp at hj
          | cons c1 cs1 =>
            have hdec := utf8DecodeRune_encode c1 (hsc2 c1 (by simp))
              ((cs1.map utf8EncodeChar).flatten)
            rw [List.map_cons, List.flatten_cons] at hj
            rw [← hj] at hdec
            refine ⟨cs1, fun x hx => hsc2 x (by simp [hx]), ?_⟩
            have hn : (utf8DecodeRune (s0 :: t)).2 = (utf8EncodeChar c1).length := by
              rw [hdec]
            rw [hn, hj]
            exact List.drop_left _ _

/-- The UTF-8 validity loop accepts exactly the well-formed byte lists. -/
theorem utf8ScanLoop_none_iff (pname rest : List Nat) :
    utf8ScanLoop pname rest = none ↔ Utf8WellFormed rest :=
  utf8ScanGo_none_iff pname rest.length rest le_rfl

/-- The effective condition guarding the UTF-8 validity scan holds exactly
when `ValidUTF8` is requested without `ASCIIOnly`. -/
theorem utf8cond_spec (r : Nat) :
    eff r &&& (ASCIIOnly ||| ValidUTF8) = ValidUTF8 ↔
      r &&& ASCIIOnly = 0 ∧ r &&& ValidUTF8 ≠ 0 := by
  rw [(by decide : (ASCIIOnly ||| ValidUTF8 : Nat) = 3)]
  have e31 : (eff r &&& 3) &&& 1 = eff r &&& 1 := by
    rw [Nat.land_assoc, (by decide : (3 &&& 1 : Nat) = 1)]
  have e32 : (eff r &&& 3) &&& 2 = eff r &&& 2 := by
    rw [Nat.land_assoc, (by decide : (3 &&& 2 : Nat) = 2)]
  constructor
  · intro hc
    rw [hc] at e31 e32
    constructor
    · rw [← eff_land_ASCIIOnly]
      show eff r &&& 1 = 0
      rw [← e31]
      decide
    · rw [← eff_land_ValidUTF8]
      show eff r &&& 2 ≠ 0
      rw [← e32]
      decide
  · rintro ⟨hA, hV⟩
    have h1 : eff r &&& 1 = 0 := by
      have := eff_land_ASCIIOnly r
      rw [hA] at this
      exact this
    have h2 : eff r &&& 2 ≠ 0 := by
      have h : eff r &&& 2 = r &&& 2 := eff_land_ValidUTF8 r
      intro hz
      rw [hz] at h
      exact hV h.symm
    have e3 : eff r &&& 3 = eff r % 4 := by
      have h := Nat.and_pow_two_sub_one_eq_mod (eff r) 2
      norm_num at h
      exact h
    have e1 : eff r &&& 1 = eff r % 2 := Nat.and_one_is_mod _
    have hmm : eff r % 4 % 2 = eff r % 2 := Nat.mod_mod_of_dvd _ (by norm_num)
    rw [e3] at e32 ⊢
    rw [e1] at h1
    have hm2 : eff r % 4 % 2 = 0 := by
      rw [hmm]
      exact h1
    have hm4 : eff r % 4 < 4 := Nat.mod_lt _ (by norm_num)
    have hand : eff r % 4 &&& 2 ≠ 0 := by
      rw [e32]
      exact h2
    set m := eff r % 4 with hm
    interval_cases m
    · exact absurd (by decide : (0 : Nat) &&& 2 = 0) hand
    · omega
    · decide
    · omega

/-- C8: the encoding-validity scan.  When `ValidUTF8` is requested without
`ASCIIOnly`, a segment other than the always-rejected `""`/`"."`/`".."` is
rejected with kind `errInvalidUTF8` exactly when its bytes are not
well-formed UTF-8; when `ASCIIOnly` is also requested, or `ValidUTF8` is not,
no outcome ever carries kind `errInvalidUTF8` (the scan is skipped). -/
theorem encoding_scan_characterization :
    (∀ (r : Nat) (name : List Nat), r &&& ASCIIOnly = 0 → r &&& ValidUTF8 ≠ 0 →
      name ≠ [] → name ≠ [46] → name ≠ [46, 46] →
      ((∃ e, CheckPathSegment r name = some e ∧ e.err = errInvalidUTF8) ↔
        ¬ Utf8WellFormed name)) ∧
    ∀ (r : Nat) (name : List Nat), (r &&& ASCIIOnly ≠ 0 ∨ r &&& ValidUTF8 = 0) →
      ∀ e, CheckPathSegment r name = some e → e.err ≠ errInvalidUTF8 := by
  constructor
  · intro r name hA hV h1 h2 h3
    have hcond : eff r &&& (ASCIIOnly ||| ValidUTF8) = ValidUTF8 :=
      (utf8cond_spec r).mpr ⟨hA, hV⟩
    have hbad : ¬(name = [] ∨ name = [46] ∨ name = [46, 46]) := by
      rintro (h | h | h)
      exacts [h1 h, h2 h, h3 h]
    constructor
    · rintro ⟨e, he, herr⟩
      rcases cps_some_cases r name e he with ⟨hb, -⟩ | hs | ⟨-, hb2⟩ | ⟨-, -, hp⟩
      · exact absurd hb hbad
      · unfold utf8Stage at hs
        rw [if_pos hcond] at hs
        intro hwf
        rw [← utf8ScanLoop_none_iff name name] at hwf
        rw [hs] at hwf
        cases hwf
      · have hb3 := (byteScanAux_some _ _ _ _ _ hb2).1
        rw [hb3] at herr
        exact absurd herr (by decide)
      · rcases posChecks_some _ _ _ hp with ⟨hf, -⟩ | ⟨-, hwc⟩
        · rw [hf] at herr
          exact absurd herr (by decide)
        · rcases windowsCheck_some _ _ _ hwc with ⟨hl, -⟩ | ⟨hw, -⟩
          · rw [hl] at herr
            exact absurd herr (by decide)
          · rw [hw] at herr
            exact absurd herr (by decide)
    · intro hwf
      have hscan : utf8ScanLoop name name ≠ none := by
        intro hz
        exact hwf ((utf8ScanLoop_none_iff name name).mp hz)
      rcases hs : utf8ScanLoop name name with - | e0
      · exact absurd hs hscan
      · have he0 : e0 = { name := name, err := errInvalidUTF8 } := utf8ScanGo_some _ _ _ _ hs
        refine ⟨e0, ?_, by rw [he0]⟩
        simp only [CheckPathSegment]
        rw [if_neg hbad]
        have hstage : utf8Stage (eff r) name = some e0 := by
          unfold utf8Stage
          rw [if_pos hcond]
          exact hs
        rw [hstage]
  · intro r name hor e he herr
    rcases cps_some_cases r name e he with ⟨-, rfl⟩ | hs | ⟨-, hb2⟩ | ⟨-, -, hp⟩
    · simp [errBad, errInvalidUTF8] at herr
    · have hcond : ¬(eff r &&& (ASCIIOnly ||| ValidUTF8) = ValidUTF8) := by
        rw [utf8cond_spec]
        rintro ⟨hA2, hV2⟩
        rcases hor with h | h
        · exact h hA2
        · exact hV2 h
      unfold utf8Stage at hs
      rw [if_neg hcond] at hs
      cases hs
    · have hb3 := (byteScanAux_some _ _ _ _ _ hb2).1
      rw [hb3] at herr
      exact absurd herr (by decide)
    · rcases posChecks_some _ _ _ hp with ⟨hf, -⟩ | ⟨-, hwc⟩
      · rw [hf] at herr
        exact absurd herr (by decide)
      · rcases windowsCheck_some _ _ _ hwc with ⟨hl, -⟩ | ⟨hw, -⟩
        · rw [hl] at herr
          exact absurd herr (by decide)
        · rw [hw] at herr
          exact absurd herr (by decide)

/-- C8 witness: the characterization instantiated at `r = ValidUTF8` and the
one-byte segment `0xFF`, which the scan rejects, certifying that it is not
well-formed UTF-8. -/
theorem encoding_scan_characterization_witness : ¬ Utf8WellFormed [255] :=
  (encoding_scan_characterization.1 ValidUTF8 [255] (by decide) (by decide) (by decide)
    (by decide) (by decide)).mp ⟨{ name := [255], err := errInvalidUTF8 }, by decide, rfl⟩

end Safepath
